import Mathlib

/-!
The shell `gush`: a shallow embedding of `gush.c`.

The shell keeps its argument vectors in heap blocks of `char*` cells.  The
embedding keeps those blocks cell by cell:

* a block is the list of its cells, its length being the number of cells that
  `malloc` was asked for; `none` is the `NULL` pointer;
* the cells of a fresh block hold whatever the allocator left there; that
  content is a parameter (`junk`) of every function that allocates;
* a load or store at an index outside the block, and a load through `NULL`,
  is a `Fault`: the C program has no defined behaviour from there on.

Character strings are values: the sizes of `char` buffers are not part of the
model.
-/

namespace Gush

/-- The ways in which an access of the C program leaves defined behaviour. -/
inductive Fault where
  /-- a cell outside the allocated block (or global array) is read or written -/
  | outOfBounds
  /-- the `NULL` pointer is dereferenced -/
  | nullDeref
  /-- the iteration bound of the model was reached; `forkLoop` never does so
  with the bound that `splitGroups` gives it -/
  | fuel
  /-- a string literal is written to -/
  | literalWrite
  deriving DecidableEq, Repr

/-- A cell of a `char**` array: `none` is `NULL`. -/
abbrev Cell := Option String

/-- A block of `char*` cells; its length is its capacity. -/
abbrev Arr := List Cell

/-- Outcome of a piece of C code: a value, or the fault it runs into. -/
inductive Res (α : Type) where
  | ok (a : α)
  | fault (f : Fault)
  deriving DecidableEq, Repr

/-- Sequencing of outcomes. -/
def Res.bind {α β : Type} (r : Res α) (k : α → Res β) : Res β :=
  match r with
  | .ok a => k a
  | .fault f => .fault f

instance : Monad Res where
  pure := Res.ok
  bind := Res.bind

/-- A fresh block of `n` cells; `junk i` is what the allocator left in cell `i`. -/
def malloc (junk : Nat → Cell) (n : Nat) : Arr :=
  (List.range n).map junk

/-- The block grown to `n` cells: the old cells are kept, the new ones are junk. -/
def realloc (junk : Nat → Cell) (a : Arr) (n : Nat) : Arr :=
  (List.range n).map fun i => match a[i]? with
    | some c => c
    | none => junk i

/-- Load `a[i]`. -/
def rd (a : Arr) (i : Nat) : Res Cell :=
  match a[i]? with
  | some c => .ok c
  | none => .fault .outOfBounds

/-- Store `a[i] = c`. -/
def wr (a : Arr) (i : Nat) (c : Cell) : Res Arr :=
  if i < a.length then .ok (a.set i c) else .fault .outOfBounds

/-- The argument vector a reader sees in a block: the cells before the first `NULL`.
Scanning past the end of the block without meeting `NULL` is a fault. -/
def argv : Arr → Res (List String)
  | [] => .fault .outOfBounds
  | none :: _ => .ok []
  | some s :: rest => match argv rest with
    | .ok l => .ok (s :: l)
    | .fault f => .fault f

/-! ## Tokenizer -/

/-- BUFSIZE of the source. -/
def BUFSIZE : Nat := 64

/-- Membership in DELIMS, the string `" \n\t\r\a"`. -/
def isDelim (c : Char) : Bool :=
  c == ' ' || c == '\n' || c == '\t' || c == '\r' || c == '\x07'

/-- The tokens that `strtok(line, DELIMS)` followed by repeated
`strtok(NULL, DELIMS)` returns, in order; `cur` is the token being scanned,
most recent character first. -/
def strtokAux : List Char → List Char → List String
  | [], cur => if cur.isEmpty then [] else [String.mk cur.reverse]
  | c :: cs, cur =>
    if isDelim c then
      if cur.isEmpty then strtokAux cs [] else String.mk cur.reverse :: strtokAux cs []
    else strtokAux cs (c :: cur)

/-- All tokens of a line, as `strtok` yields them.  `line` is the C string that
`strtok` reads, the characters of the buffer before its first NUL (`cstring`). -/
def strtokAll (line : List Char) : List String := strtokAux line []

/-- The `while(token != NULL)` loop of `gushSplitLine`. -/
def storeTokens (junk : Nat → Cell) : List String → Arr → Nat → Nat → Res (Arr × Nat)
  | [], tokens, _, pos => .ok (tokens, pos)
  | token :: more, tokens, bufsize, pos =>
    match wr tokens pos (some token) with
    | .fault f => .fault f
    | .ok tokens =>
      if pos + 1 > bufsize then
        storeTokens junk more (realloc junk tokens (bufsize + BUFSIZE)) (bufsize + BUFSIZE) (pos + 1)
      else
        storeTokens junk more tokens bufsize (pos + 1)

/-- The function `gushSplitLine`: the block of tokens of a line. -/
def gushSplitLine (junk : Nat → Cell) (line : List Char) : Res Arr :=
  match storeTokens junk (strtokAll line) (malloc junk BUFSIZE) BUFSIZE 0 with
  | .fault f => .fault f
  | .ok (tokens, pos) =>
    match wr tokens pos none with
    | .fault f => .fault f
    | .ok tokens =>
      match rd tokens 0 with
      | .fault f => .fault f
      | .ok none => wr tokens 0 (some "deadcmd")
      | .ok (some _) => .ok tokens

/-! ## Group splitter -/

/-- The loop of `gushSplitProcess`, on the cells of `args` from `index` on.  The
copy of a token is kept as a value; `splitProcessLoopBytes` adds the one-byte
block that the copy is written into. -/
def splitProcessLoop : List Cell → Arr → Nat → Res Arr
  | [], _, _ => .fault .outOfBounds
  | none :: _, newargs, i => wr newargs i none
  | some s :: rest, newargs, i =>
    if s ≠ "&" then
      match wr newargs i (some s) with
      | .fault f => .fault f
      | .ok newargs => splitProcessLoop rest newargs (i + 1)
    else wr newargs i none

/-- The function `gushSplitProcess`: the group that starts at `index`. -/
def gushSplitProcess (junk : Nat → Cell) (args : Option Arr) (index : Nat) : Res Arr :=
  match args with
  | none => .fault .nullDeref
  | some a => splitProcessLoop (a.drop index) (malloc junk 64) 0

/-- The loop of `gushGetPindex`, on the cells of `args` from `pindex` on. -/
def getPindexLoop : List Cell → Nat → Res Nat
  | [], _ => .fault .outOfBounds
  | none :: _, pindex => .ok pindex
  | some s :: rest, pindex => if s = "&" then .ok pindex else getPindexLoop rest (pindex + 1)

/-- The function `gushGetPindex`: index of the next `&` or of the terminator. -/
def gushGetPindex (args : Option Arr) (pindex : Nat) : Res Nat :=
  match args with
  | none => .fault .nullDeref
  | some a => getPindexLoop (a.drop pindex) pindex

/-- The `while(args[pindex] != NULL)` loop of `gushloop` and `gushbatch`, as the
parent process runs it: every turn builds the next group `pargs2` and forks a
child for it (the child leaves the loop with `pargs = pargs2`).  The result is
the list of the groups handed to children, in order.  `junk k` is the content
of the block that the `k`-th call of `gushSplitProcess` allocates. -/
def forkLoop (junk : Nat → Nat → Cell) (args : Option Arr) : Nat → Nat → Nat → Res (List Arr)
  | 0, _, _ => .fault .fuel
  | fuel + 1, pindex, k =>
    match args with
    | none => .fault .nullDeref
    | some a =>
      match rd a pindex with
      | .fault f => .fault f
      | .ok none => .ok []
      | .ok (some _) =>
        match gushSplitProcess (junk k) args pindex with
        | .fault f => .fault f
        | .ok pargs2 =>
          match gushGetPindex args pindex with
          | .fault f => .fault f
          | .ok p =>
            match forkLoop junk args fuel (p + 1) (k + 1) with
            | .fault f => .fault f
            | .ok l => .ok (pargs2 :: l)

/-- Number of turns that `forkLoop` can take at most on `args`: `pindex` grows
in every turn and a load beyond the block faults. -/
def loopBound (args : Option Arr) : Nat :=
  match args with
  | none => 1
  | some a => a.length + 1

/-- The parallel process handling of `gushloop` (lines 240-253) and `gushbatch`
(lines 321-334), in the parent: the group `pargs` that the parent keeps and the
groups of the children it forked. -/
def splitGroups (junk : Nat → Nat → Cell) (args : Option Arr) : Res (Arr × List Arr) :=
  match gushSplitProcess (junk 0) args 0 with
  | .fault f => .fault f
  | .ok pargs =>
    match gushGetPindex args 0 with
    | .fault f => .fault f
    | .ok p =>
      match forkLoop junk args (loopBound args) (p + 1) 1 with
      | .fault f => .fault f
      | .ok l => .ok (pargs, l)

/-- The block that `gushSplitLine` returns for a non-empty token list. -/
def block (junk : Nat → Cell) (toks : List String) : Arr :=
  toks.map some ++ none :: (malloc junk 64).drop (toks.length + 1)

/-- A cell at which a group ends: the terminator or the separator. -/
def isStop (c : Cell) : Prop := c = none ∨ c = some "&"

/-- The groups of a line whose token block reaches the group loop as it is (a
line that is no history shortcut), as the parent sees them: the group it
keeps, then the groups of the children it forks.  `gushloopGroups` has the
history handling in between. -/
def lineGroups (junk : Nat → Cell) (jk : Nat → Nat → Cell) (line : List Char) : Res (List Arr) :=
  match gushSplitLine junk line with
  | .fault f => .fault f
  | .ok args =>
    match splitGroups jk (some args) with
    | .fault f => .fault f
    | .ok (pargs, forked) => .ok (pargs :: forked)

/-- A line of 63 tokens, each the letter `a`. -/
def line63 : List Char := (List.replicate 63 ['a', ' ']).flatten

/-- An allocator whose blocks hold `NULL` in every cell. -/
def zeroed : Nat → Cell := fun _ => none

/-- An allocator whose blocks hold a stale pointer to `s` in cell `i` and `NULL` elsewhere. -/
def staleAt (i : Nat) (s : String) : Nat → Cell := fun j => if j = i then some s else none

/-- The argument vectors of the groups of a line. -/
def lineVectors (junk : Nat → Cell) (jk : Nat → Nat → Cell) (line : List Char) :
    Res (List (Res (List String))) :=
  match lineGroups junk jk line with
  | .fault f => .fault f
  | .ok gs => .ok (gs.map argv)

/-! ## History store -/

/-- The globals `history` (20 slots of `char**`, zero-initialised) and `historyct`. -/
structure History where
  /-- the array `char** history[20]`; `none` is a `NULL` slot -/
  slots : List (Option Arr)
  /-- the counter `historyct` -/
  historyct : Nat
  deriving DecidableEq, Repr

/-- The history store at program start. -/
def History.init : History := ⟨List.replicate 20 none, 0⟩

/-- The statements `history[historyct%20] = args; historyct++` of `gushloop`. -/
def record (h : History) (args : Option Arr) : History :=
  ⟨h.slots.set (h.historyct % 20) args, h.historyct + 1⟩

/-- The store after the commands `cmds` have been recorded, in that order. -/
def recordAll (cmds : List Arr) : History :=
  cmds.foldl (fun h c => record h (some c)) History.init

/-- The character `s[i]` of a C string: the characters of `s`, then the
terminating NUL; `past` is the byte found behind the terminator. -/
def cstrAt (s : String) (past : Char) (i : Nat) : Char :=
  match s.toList[i]? with
  | some c => c
  | none => if i = s.length then '\x00' else past

/-- The function `gushIsHistoryShortcut`: `args[0][0] == '!'`. -/
def gushIsHistoryShortcut (a0 : String) : Bool :=
  cstrAt a0 '\x00' 0 == '!'

/-- The C library's `isspace`. -/
def isSpace (c : Char) : Bool :=
  c == ' ' || c == '\t' || c == '\n' || c == '\x0b' || c == '\x0c' || c == '\r'

/-- The digits part of `atoi`, reading a buffer; running off the buffer is a fault. -/
def atoiDigits : List Char → Nat → Res Nat
  | [], _ => .fault .outOfBounds
  | c :: cs, acc => if c.isDigit then atoiDigits cs (acc * 10 + (c.toNat - 48)) else .ok acc

/-- The C library's `atoi` after leading white space. -/
def atoiSigned : List Char → Res Int
  | [] => .fault .outOfBounds
  | c :: cs =>
    if c = '-' then
      match atoiDigits cs 0 with
      | .ok n => .ok (-(n : Int))
      | .fault f => .fault f
    else
      match atoiDigits (if c = '+' then cs else c :: cs) 0 with
      | .ok n => .ok (n : Int)
      | .fault f => .fault f

/-- The C library's `atoi`, reading a buffer. -/
def atoi : List Char → Res Int
  | [] => .fault .outOfBounds
  | c :: cs => if isSpace c then atoi cs else atoiSigned (c :: cs)

/-- Store of one byte into the 3-byte buffer `shortcut`. -/
def setByte (buf : List Char) (i : Nat) (c : Char) : List Char := buf.set i c

/-- The loop `while(i < 2)` of `gushGetHistoryCmd`, unrolled: `buf` is the
buffer `shortcut` as `malloc` returned it. -/
def parseShortcut (buf : List Char) (a0 : String) (past : Char) : List Char :=
  let c0 := cstrAt a0 past 1
  let buf := if c0 ≠ '\x00' ∧ c0 ≠ '\n' then setByte buf 0 c0 else buf
  let c1 := cstrAt a0 past 2
  if c1 ≠ '\x00' ∧ c1 ≠ '\n' then setByte buf 1 c1 else buf

/-- The load `history[i]` for a C `int` index. -/
def historyAt (slots : List (Option Arr)) (i : Int) : Res (Option Arr) :=
  if 0 ≤ i then
    match slots[i.toNat]? with
    | some p => .ok p
    | none => .fault .outOfBounds
  else .fault .outOfBounds

/-- The function `gushGetHistoryCmd`: `history[atoi(shortcut)-1]`.  `buf` is a
list of three bytes, the content of the fresh buffer `shortcut`. -/
def gushGetHistoryCmd (h : History) (buf : List Char) (past : Char) (args : Arr) :
    Res (Option Arr) :=
  match rd args 0 with
  | .fault f => .fault f
  | .ok none => .fault .nullDeref
  | .ok (some a0) =>
    match atoi (parseShortcut buf a0 past) with
    | .fault f => .fault f
    | .ok n => historyAt h.slots (n - 1)

/-- The history handling of `gushloop` (lines 228-237): the store and the
vector `args` after it. -/
def historyHandling (h : History) (buf : List Char) (past : Char) (args : Arr) :
    Res (History × Option Arr) :=
  match rd args 0 with
  | .fault f => .fault f
  | .ok none => .fault .nullDeref
  | .ok (some a0) =>
    if a0 ≠ "history" then
      if ¬ gushIsHistoryShortcut a0 then .ok (record h (some args), some args)
      else
        match gushGetHistoryCmd h buf past args with
        | .fault f => .fault f
        | .ok newargs => .ok (record h newargs, newargs)
    else .ok (h, some args)

/-- One printed line of the `history` built-in: the number printed by
`printf("%d: ", i+1)` and the words printed by `printf("%s ", ...)`. -/
structure HistLine where
  index : Nat
  words : List String
  deriving DecidableEq, Repr

/-- The loop `while(i < count)` of `gush_history`, from slot `i` on. -/
def historyLines (slots : List (Option Arr)) : Nat → Nat → Res (List HistLine)
  | 0, _ => .ok []
  | n + 1, i =>
    match slots[i]? with
    | none => .fault .outOfBounds
    | some none => .fault .nullDeref
    | some (some a) =>
      match argv a with
      | .fault f => .fault f
      | .ok ws =>
        match historyLines slots n (i + 1) with
        | .fault f => .fault f
        | .ok ls => .ok (⟨i + 1, ws⟩ :: ls)

/-- The function `gush_history` called without arguments (`args[1] == NULL`):
the lines it prints. -/
def gush_history (h : History) : Res (List HistLine) :=
  historyLines h.slots (if h.historyct > 20 then 20 else h.historyct) 0

/-- The lines that list the entries `ws` under the consecutive numbers `i`, `i + 1`, ... -/
def numberFrom : Nat → List (List String) → List HistLine
  | _, [] => []
  | i, w :: ws => ⟨i, w⟩ :: numberFrom (i + 1) ws

/-- A fresh 3-byte buffer whose bytes are all NUL. -/
def zeroBytes : List Char := ['\x00', '\x00', '\x00']

/-! ## Command resolver -/

/-- The loop `while(path[i] != NULL)` of `gushIsValidCmd`, on the cells of the
global `path` from `i` on; `tmp` is the content of the buffer `tmp`. -/
def validLoop (access : String → Bool) (cmd : String) : List Cell → String → Res String
  | [], _ => .fault .outOfBounds
  | none :: _, _ => .ok cmd
  | some dir :: rest, tmp =>
    if access (tmp ++ dir ++ "/" ++ cmd) then .ok (tmp ++ dir ++ "/" ++ cmd)
    else validLoop access cmd rest ""

/-- The function `gushIsValidCmd`.  `access p` tells whether `access(p, X_OK)`
is 0; `path` is the global array `path`; `tmp0` is the C string found in the
fresh buffer `tmp`, which the function appends to without initialising it. -/
def gushIsValidCmd (access : String → Bool) (path : List Cell) (tmp0 : String) (cmd : Cell) :
    Res String :=
  match cmd with
  | none => .fault .nullDeref
  | some c => if access c then .ok c else validLoop access c path tmp0

/-- The global `path` holding the directories `dirs`: 64 cells, `NULL` behind
the directories. -/
def pathOf (dirs : List String) : List Cell :=
  dirs.map some ++ List.replicate (64 - dirs.length) none

/-! ## Redirector -/

/-- What a descriptor of the shell is bound to. -/
inductive Endpoint where
  /-- the open file the shell was started with at descriptor `fd` -/
  | inherited (fd : Nat)
  /-- a file opened by the shell, for reading or for writing -/
  | file (path : Cell) (forWriting : Bool)
  deriving DecidableEq, Repr

/-- The descriptors that the shell uses: 0, 1 and the two made by `dup` at the
start of `gushloop` and `gushbatch`. -/
structure Fds where
  stdin : Endpoint
  stdout : Endpoint
  inbackup : Endpoint
  outbackup : Endpoint
  deriving DecidableEq, Repr

/-- The loop of `gushContainsRedirect`, on the cells of `args` from `i` on:
the index of the first `>` or `<`, if there is one. -/
def containsRedirectLoop : List Cell → Nat → Res (Option Nat)
  | [], _ => .fault .outOfBounds
  | none :: _, _ => .ok none
  | some s :: rest, i =>
    if s = ">" ∨ s = "<" then .ok (some i) else containsRedirectLoop rest (i + 1)

/-- The function `gushContainsRedirect`: its return value and the global
`redirectIndex` after the call. -/
def gushContainsRedirect (args : Arr) (redirectIndex : Nat) : Res (Bool × Nat) :=
  match containsRedirectLoop args 0 with
  | .fault f => .fault f
  | .ok none => .ok (false, redirectIndex)
  | .ok (some i) => .ok (true, i)

/-- The loop `while(i < redirectIndex)` of `gushRedirect`: `n` turns from `i` on. -/
def copyArgs (args : Arr) : Nat → Nat → Arr → Res Arr
  | 0, _, newargs => .ok newargs
  | n + 1, i, newargs =>
    match rd args i with
    | .fault f => .fault f
    | .ok c =>
      match wr newargs i c with
      | .fault f => .fault f
      | .ok newargs => copyArgs args n (i + 1) newargs

/-- How `gushRedirect` ends. -/
inductive Redirect where
  /-- by `exit(EXIT_FAILURE)`, after `errors` calls of `gushError` -/
  | exited (status : Nat) (errors : Nat)
  /-- by returning a vector, with the descriptors as it leaves them -/
  | returned (newargs : Arr) (fds : Fds) (errors : Nat)
  deriving DecidableEq, Repr

/-- The calls `dup2(fd, STDIN_FILENO)` and `dup2(fd, STDOUT_FILENO)` of
`gushRedirect`, for the token `tok` at `redirectIndex` and the opened target. -/
def bindRedirect (fds : Fds) (tok : String) (target : Cell) : Fds :=
  if tok = "<" then { fds with stdin := .file target false }
  else { fds with stdout := .file target true }

/-- The function `gushRedirect`.  `openR t` and `openW t` tell whether
`open(t, O_RDONLY)` and `open(t, O_CREAT | O_WRONLY | O_TRUNC, 0600)` succeed;
`junk` is the content of the fresh block `newargs` of `redirectIndex` cells. -/
def gushRedirect (junk : Nat → Cell) (openR openW : Cell → Bool) (redirectIndex : Nat)
    (fds : Fds) (args : Arr) : Res Redirect :=
  match rd args redirectIndex with
  | .fault f => .fault f
  | .ok none => .fault .nullDeref
  | .ok (some tok) =>
    match rd args (redirectIndex + 1) with
    | .fault f => .fault f
    | .ok target =>
      if tok = "<" ∧ ¬ openR target then .ok (.returned args fds 1)
      else if tok ≠ "<" ∧ ¬ openW target then .ok (.exited 1 1)
      else
        match copyArgs args redirectIndex 0 (malloc junk redirectIndex) with
        | .fault f => .fault f
        | .ok newargs =>
          match wr newargs redirectIndex none with
          | .fault f => .fault f
          | .ok newargs => .ok (.returned newargs (bindRedirect fds tok target) 0)

/-- The descriptors at the start of `gushloop`: the two backups are duplicates
of descriptors 0 and 1. -/
def gushloopFds (in0 out0 : Endpoint) : Fds := ⟨in0, out0, in0, out0⟩

/-- The descriptors of `gushbatch` when its loop starts: the backups are taken
first, then `dup2(fd, STDIN_FILENO)` binds descriptor 0 to the batch file. -/
def gushbatchFds (in0 out0 : Endpoint) (file : String) : Fds :=
  { (⟨in0, out0, in0, out0⟩ : Fds) with stdin := .file (some file) false }

/-- The calls `dup2(inbackup, STDIN_FILENO); dup2(outbackup, STDOUT_FILENO)`. -/
def restoreFds (fds : Fds) : Fds :=
  { fds with stdin := fds.inbackup, stdout := fds.outbackup }

/-- The descriptors of the shell over the branch `if(redirect)` of the loop
body (lines 260-266 and 342-348) when the target opens: `gushRedirect` binds,
`gushExecute` leaves the table of the shell as it is, the two `dup2` follow. -/
def redirectedRunFds (fds : Fds) (tok : String) (target : Cell) : Fds :=
  restoreFds (bindRedirect fds tok target)

/-- An oracle for `access(p, X_OK)`: a file `x` in each of `/a` and `/b`. -/
def accessAB (p : String) : Bool := p == "/a/x" || p == "/b/x"

/-- The first directory of `dirs` in which `cmd` is executable, joined with `cmd`. -/
def firstMatch (access : String → Bool) (cmd : String) : List String → Option String
  | [] => none
  | dir :: rest =>
    if access (dir ++ "/" ++ cmd) then some (dir ++ "/" ++ cmd) else firstMatch access cmd rest

/-- An oracle for `open` under which every target opens. -/
def opensAll : Cell → Bool := fun _ => true

/-- An oracle for `open` under which no target opens. -/
def opensNone : Cell → Bool := fun _ => false

/-- The descriptors of an interactive shell started on a terminal. -/
def ttyFds : Fds := gushloopFds (.inherited 0) (.inherited 1)

/-! ## Child processes -/

/-- The table `builtin_names`. -/
def builtin_names : List String := ["exit", "cd", "kill", "history", "pwd", "path"]

/-- The children of the shell process: the process ids it has got from `fork`
and not yet reaped, oldest first, and the id the next child will get. -/
structure Kids where
  unreaped : List Nat
  next : Nat
  deriving DecidableEq, Repr

/-- The call `fork()` in the parent: the table with the new child, and its id. -/
def fork (k : Kids) : Kids × Nat :=
  (⟨k.unreaped ++ [k.next], k.next + 1⟩, k.next)

/-- The call `waitpid(pid, &status, WUNTRACED)` repeated until the child `pid`
has exited or was killed: that child is reaped. -/
def waitpid (k : Kids) (pid : Nat) : Kids :=
  ⟨k.unreaped.erase pid, k.next⟩

/-- The call `wait(NULL)`: one child is reaped, the one that ends first, which
`pick` selects among the unreaped ones; without children the call fails and
changes nothing. -/
def waitAny (k : Kids) (pick : Nat) : Kids :=
  match k.unreaped[pick % k.unreaped.length]? with
  | some pid => ⟨k.unreaped.erase pid, k.next⟩
  | none => k

/-- The function `gushLaunch` in the parent: `fork`, then wait for that child. -/
def gushLaunchKids (k : Kids) : Kids :=
  waitpid (fork k).1 (fork k).2

/-- The children of the shell over `gushExecute(args)`: an empty command and a
built-in create none, any other command goes through `gushLaunch`. -/
def gushExecuteKids (k : Kids) (args : Arr) : Res Kids :=
  match rd args 0 with
  | .fault f => .fault f
  | .ok none => .ok k
  | .ok (some name) => if name ∈ builtin_names then .ok k else .ok (gushLaunchKids k)

/-- The forks of the group loop: one child per group after the first; `rval`
is the variable of that name, set by every `fork()`. -/
def forkGroups : List Arr → Kids → Int → Kids × Int
  | [], k, rval => (k, rval)
  | _ :: gs, k, _ => forkGroups gs (fork k).1 ((fork k).2 : Int)

/-- One turn of the loop of `gushloop` in the shell process for a group
without redirection, from the group loop over `pargs[0] = gushIsValidCmd(pargs[0])`
and `gushExecute(pargs)` to the statement `if(rval == 0) break; else wait(NULL);`,
as far as its children go.  `rval` is the value of the variable before the
turn, `pick` selects the child that `wait(NULL)` reaps.  The result is the
table and `rval` when the turn ends, and whether the shell has left the loop
by `break`. -/
def parentTurn (jk : Nat → Nat → Cell) (access : String → Bool) (path : List Cell)
    (tmp0 : String) (args : Option Arr) (k : Kids) (rval : Int) (pick : Nat) :
    Res (Kids × Int × Bool) :=
  match splitGroups jk args with
  | .fault f => .fault f
  | .ok (pargs, forked) =>
    match rd pargs 0 with
    | .fault f => .fault f
    | .ok cmd =>
      match gushIsValidCmd access path tmp0 cmd with
      | .fault f => .fault f
      | .ok name =>
        match wr pargs 0 (some name) with
        | .fault f => .fault f
        | .ok pargs =>
          match gushExecuteKids (forkGroups forked k rval).1 pargs with
          | .fault f => .fault f
          | .ok k' =>
            if (forkGroups forked k rval).2 = 0 then
              .ok (k', (forkGroups forked k rval).2, true)
            else .ok (waitAny k' pick, (forkGroups forked k rval).2, false)

/-- The turn of the shell process for a line: a shell without children whose
process ids start at 100, `rval` holding 1, a zeroed allocator, the search path
`/bin` and no executable file. -/
def lineTurn (line : List Char) (pick : Nat) : Res (Kids × Int × Bool) :=
  match gushSplitLine zeroed line with
  | .fault f => .fault f
  | .ok args =>
    parentTurn (fun _ => zeroed) (fun _ => false) (pathOf ["/bin"]) "" (some args) ⟨[], 100⟩ 1 pick

/-! ## Tokenizer, as the specification words it -/

/-- The maximal runs of characters of `line` that hold none of the delimiters,
in order: the line is cut at every delimiter and the empty pieces are dropped. -/
def delimiterFreeRuns (line : List Char) : List String :=
  ((line.splitOnP isDelim).filter (fun r => !r.isEmpty)).map String.mk

/-- A line of 64 tokens, each the letter `a`. -/
def line64 : List Char := (List.replicate 64 ['a', ' ']).flatten

/-- A line of 65 tokens, each the letter `b`, separated by tabs. -/
def line65 : List Char := (List.replicate 65 ['b', '\t']).flatten

/-! ## History store: every reachable state -/

/-- The store after the vectors `xs` have been recorded, in that order; a
recorded vector is `none` when a shortcut line recalled an empty slot. -/
def recordSeq (xs : List (Option Arr)) : History :=
  xs.foldl record History.init

/-- Twenty-five commands, the `n`-th being the one word `c` repeated `n + 1` times. -/
def cmds25 : List (Option Arr) :=
  (List.range 25).map fun n => some (List.replicate (n + 1) (some "c") ++ [none])

/-! ## History handling of batch mode -/

/-- The history handling of `gushbatch` (lines 311-319): the condition of the
interactive loop, followed by `&& args[1] == NULL`. -/
def historyHandlingBatch (h : History) (buf : List Char) (past : Char) (args : Arr) :
    Res (History × Option Arr) :=
  match rd args 0 with
  | .fault f => .fault f
  | .ok none => .fault .nullDeref
  | .ok (some a0) =>
    if a0 ≠ "history" then
      match rd args 1 with
      | .fault f => .fault f
      | .ok (some _) => .ok (h, some args)
      | .ok none =>
        if ¬ gushIsHistoryShortcut a0 then .ok (record h (some args), some args)
        else
          match gushGetHistoryCmd h buf past args with
          | .fault f => .fault f
          | .ok newargs => .ok (record h newargs, newargs)
    else .ok (h, some args)

/-! ## Dispatcher and built-ins -/

/-- What the `printf` calls of a built-in write to standard output. -/
inductive Printed where
  /-- the line of `gush_pwd` -/
  | cwd (dir : String)
  /-- the lines of `gush_history` -/
  | history (lines : List HistLine)
  deriving DecidableEq, Repr

/-- The state that `gushExecute` works on. -/
structure Sys where
  /-- the globals `history` and `historyct` -/
  history : History
  /-- the global `path`, 64 cells -/
  path : List Cell
  /-- the working directory of the shell process -/
  cwd : String
  /-- number of messages of `gushError` on standard error, those of a child
  that the shell has waited for included -/
  errors : Nat
  /-- the arguments of the calls of `chdir`, oldest first -/
  chdirs : List Cell
  /-- number of children created by the `fork` of `gushLaunch` -/
  spawned : Nat
  /-- what the built-ins have printed, oldest first -/
  printed : List Printed
  deriving DecidableEq, Repr

/-- How `gushExecute` ends. -/
inductive Exec where
  /-- by `exit(status)` -/
  | exited (status : Nat)
  /-- by returning `run`, the value that the loop condition `while(run)` tests -/
  | returned (run : Int) (s : Sys)
  deriving DecidableEq, Repr

/-- The function `gushError`: one message on standard error; its value is 0. -/
def gushError (s : Sys) : Sys × Int :=
  ({ s with errors := s.errors + 1 }, 0)

/-- The function `gush_exit`. -/
def gush_exit (s : Sys) (args : Arr) : Res Exec :=
  match rd args 1 with
  | .fault f => .fault f
  | .ok (some _) => .ok (.returned 1 (gushError s).1)
  | .ok none => .ok (.exited 0)

/-- The function `gush_cd`.  `chdir d` is the working directory after a
successful `chdir(d)`, or `none` when the call fails; `chdir(NULL)` fails. -/
def gush_cd (chdir : String → Option String) (s : Sys) (args : Arr) : Res Exec :=
  match rd args 2 with
  | .fault f => .fault f
  | .ok (some _) => .ok (.returned 1 (gushError s).1)
  | .ok none =>
    match rd args 1 with
    | .fault f => .fault f
    | .ok dir =>
      match dir.bind chdir with
      | some cwd => .ok (.returned 1 { s with cwd := cwd, chdirs := s.chdirs ++ [dir] })
      | none => .ok (.returned 1 (gushError { s with chdirs := s.chdirs ++ [dir] }).1)

/-- The function `gush_kill`: with one argument it appends with `strcat` to
`murder`, which points to the string literal `""`. -/
def gush_kill (s : Sys) (args : Arr) : Res Exec :=
  match rd args 2 with
  | .fault f => .fault f
  | .ok (some _) => .ok (.returned 1 (gushError s).1)
  | .ok none =>
    match rd args 1 with
    | .fault f => .fault f
    | .ok none => .ok (.returned 1 (gushError s).1)
    | .ok (some _) => .fault .literalWrite

/-- The function `gush_history` as a built-in, with its test of `args[1]`. -/
def gush_history_builtin (s : Sys) (args : Arr) : Res Exec :=
  match rd args 1 with
  | .fault f => .fault f
  | .ok (some _) => .ok (.returned 1 (gushError s).1)
  | .ok none =>
    match gush_history s.history with
    | .fault f => .fault f
    | .ok lines => .ok (.returned 1 { s with printed := s.printed ++ [.history lines] })

/-- The function `gush_pwd`: on an argument it returns the value of `gushError()`. -/
def gush_pwd (s : Sys) (args : Arr) : Res Exec :=
  match rd args 1 with
  | .fault f => .fault f
  | .ok (some _) => .ok (.returned (gushError s).2 (gushError s).1)
  | .ok none => .ok (.returned 1 { s with printed := s.printed ++ [.cwd s.cwd] })

/-- The loop `while(path[j] != NULL)` of `gush_path`, which clears `path`. -/
def clearPath : List Cell → Res (List Cell)
  | [] => .fault .outOfBounds
  | none :: rest => .ok (none :: rest)
  | some _ :: rest =>
    match clearPath rest with
    | .fault f => .fault f
    | .ok p => .ok (none :: p)

/-- The value of `sizeof(char*)`, the size that `gush_path` asks `malloc` for. -/
def sizeofCharPtr : Nat := 8

/-- The loop `while(args[i] != NULL)` of `gush_path`, on the cells of `args`
from `i` on.  Each turn copies `args[i]` with `strcpy` into `argscpy`, a block
of `sizeof(char*)` bytes, and from there into a fresh block of
`sizeof(char*)` bytes that `path[j]` is set to: a name whose bytes and
terminating NUL do not fit `sizeof(char*)` bytes is written behind the end of
both blocks. -/
def setPath : List Cell → List Cell → Nat → Res (List Cell)
  | [], _, _ => .fault .outOfBounds
  | none :: _, path, _ => .ok path
  | some a :: rest, path, j =>
    if a.utf8ByteSize + 1 ≤ sizeofCharPtr then
      match wr path j (some a) with
      | .fault f => .fault f
      | .ok path => setPath rest path (j + 1)
    else .fault .outOfBounds

/-- The function `gush_path`. -/
def gush_path (s : Sys) (args : Arr) : Res Exec :=
  match clearPath s.path with
  | .fault f => .fault f
  | .ok cleared =>
    match setPath (args.drop 1) cleared 0 with
    | .fault f => .fault f
    | .ok path => .ok (.returned 1 { s with path := path })

/-- The function `gushLaunch`, as the shell process sees it: a child is
created and waited for, and the value is 1.  `execve p` tells whether
`execve(p, args, NULL)` succeeds in the child; when it fails the child calls
`gushError`. -/
def gushLaunch (execve : String → Bool) (s : Sys) (name : String) : Res Exec :=
  .ok (.returned 1 { s with spawned := s.spawned + 1,
                            errors := if execve name then s.errors else s.errors + 1 })

/-- The table `builtin_func`, in the order of `builtin_names`. -/
def builtin_func (chdir : String → Option String) : List (Sys → Arr → Res Exec) :=
  [gush_exit, gush_cd chdir, gush_kill, gush_history_builtin, gush_pwd, gush_path]

/-- The loop `for(i = 0; i < gush_num_builtins(); i++)` of `gushExecute`. -/
def dispatch (execve : String → Bool) (s : Sys) (args : Arr) (name : String) :
    List String → List (Sys → Arr → Res Exec) → Res Exec
  | n :: names, f :: funcs => if name = n then f s args else dispatch execve s args name names funcs
  | _, _ => gushLaunch execve s name

/-- The function `gushExecute`. -/
def gushExecute (chdir : String → Option String) (execve : String → Bool) (s : Sys) (args : Arr) :
    Res Exec :=
  match rd args 0 with
  | .fault f => .fault f
  | .ok none => .ok (.returned 1 s)
  | .ok (some name) => dispatch execve s args name builtin_names (builtin_func chdir)

/-- A state of the shell at its start in the directory `/home`. -/
def sys0 : Sys := ⟨History.init, pathOf ["/bin"], "/home", 0, [], 0, []⟩

/-- An oracle for `chdir` under which every directory exists. -/
def chdirAll : String → Option String := fun d => some d

/-- An oracle for `execve` under which no file can be executed. -/
def execveNone : String → Bool := fun _ => false

/-! ## Group splitter, as the specification words it -/

/-- The groups joined in order, with a single `&` token between consecutive groups. -/
def joinAmp : List (List String) → List String
  | [] => []
  | [g] => g
  | g :: g' :: gs => g ++ "&" :: joinAmp (g' :: gs)

/-- The cells of groups that are each followed by a `&` token. -/
def cellsAmp : List (List String) → List Cell
  | [] => []
  | g :: gs => g.map some ++ some "&" :: cellsAmp gs

/-- The blocks that consecutive calls of `gushSplitProcess` return for the
groups `gs`, the first of them being call number `k`. -/
def blocksFrom (jk : Nat → Nat → Cell) : Nat → List (List String) → List Arr
  | _, [] => []
  | k, g :: gs => block (jk k) g :: blocksFrom jk (k + 1) gs

/-- A group is well-formed: it holds no `&` and fits the 64 cells of its block. -/
abbrev GroupOk (g : List String) : Prop := "&" ∉ g ∧ g.length < 64

/-- The argument vectors of the groups that the group loop makes of the block
`args`: the group of the parent, then the groups of the children. -/
def groupVectors (jk : Nat → Nat → Cell) (args : Arr) : Res (List (Res (List String))) :=
  match splitGroups jk (some args) with
  | .fault f => .fault f
  | .ok (pargs, forked) => .ok ((pargs :: forked).map argv)

/-! ## The loop of `gushloop` from the line buffer to its groups

The definitions of this section add what the tokenizer and the group splitter
above leave out: the end of the line buffer at its first NUL, the history
handling that `gushloop` runs between `gushSplitLine` and the group loop, and
the one-byte blocks that `gushSplitProcess` copies the tokens into. -/

/-- The content of the buffer that `getline` returns, as `strtok` reads it: the
characters before the first NUL. -/
def cstring (buffer : List Char) : List Char :=
  buffer.takeWhile (fun c => c != '\x00')

/-- The statement `strcpy(newargs[i], args[index])` of `gushSplitProcess`, where
`newargs[i]` is `malloc(sizeof(char))`.  `room` is the number of bytes that the
block returned for the one requested byte can take (1, or more where the
allocator rounds the request up); the copy of `s` takes the bytes of `s` and
the terminating NUL, and a copy that does not fit is written behind the end of
the block. -/
def strcpyToken (room : Nat) (s : String) : Res String :=
  if s.utf8ByteSize + 1 ≤ room then .ok s else .fault .outOfBounds

/-- The loop of `gushSplitProcess`, with the blocks of the copies. -/
def splitProcessLoopBytes (room : Nat) : List Cell → Arr → Nat → Res Arr
  | [], _, _ => .fault .outOfBounds
  | none :: _, newargs, i => wr newargs i none
  | some s :: rest, newargs, i =>
    if s ≠ "&" then
      match wr newargs i (some s) with
      | .fault f => .fault f
      | .ok newargs =>
        match strcpyToken room s with
        | .fault f => .fault f
        | .ok _ => splitProcessLoopBytes room rest newargs (i + 1)
    else wr newargs i none

/-- The function `gushSplitProcess`, with the blocks of the copies. -/
def gushSplitProcessBytes (room : Nat) (junk : Nat → Cell) (args : Option Arr) (index : Nat) :
    Res Arr :=
  match args with
  | none => .fault .nullDeref
  | some a => splitProcessLoopBytes room (a.drop index) (malloc junk 64) 0

/-- The loop `while(args[pindex] != NULL)` of `gushloop`, as `forkLoop`, with
the blocks of the copies. -/
def forkLoopBytes (room : Nat) (junk : Nat → Nat → Cell) (args : Option Arr) :
    Nat → Nat → Nat → Res (List Arr)
  | 0, _, _ => .fault .fuel
  | fuel + 1, pindex, k =>
    match args with
    | none => .fault .nullDeref
    | some a =>
      match rd a pindex with
      | .fault f => .fault f
      | .ok none => .ok []
      | .ok (some _) =>
        match gushSplitProcessBytes room (junk k) args pindex with
        | .fault f => .fault f
        | .ok pargs2 =>
          match gushGetPindex args pindex with
          | .fault f => .fault f
          | .ok p =>
            match forkLoopBytes room junk args fuel (p + 1) (k + 1) with
            | .fault f => .fault f
            | .ok l => .ok (pargs2 :: l)

/-- The parallel process handling of `gushloop`, as `splitGroups`, with the
blocks of the copies. -/
def splitGroupsBytes (room : Nat) (junk : Nat → Nat → Cell) (args : Option Arr) :
    Res (Arr × List Arr) :=
  match gushSplitProcessBytes room (junk 0) args 0 with
  | .fault f => .fault f
  | .ok pargs =>
    match gushGetPindex args 0 with
    | .fault f => .fault f
    | .ok p =>
      match forkLoopBytes room junk args (loopBound args) (p + 1) 1 with
      | .fault f => .fault f
      | .ok l => .ok (pargs, l)

/-- One turn of `gushloop` from the buffer that `gushReadLine` returns to the
groups (lines 225-253): `gushSplitLine` on the C string in the buffer, the
history handling, the group loop.  The result is the history store after the
turn and the groups: the one the shell keeps, then those of the children. -/
def gushloopGroups (room : Nat) (h : History) (buf : List Char) (past : Char)
    (junk : Nat → Cell) (jk : Nat → Nat → Cell) (buffer : List Char) :
    Res (History × List Arr) :=
  match gushSplitLine junk (cstring buffer) with
  | .fault f => .fault f
  | .ok args =>
    match historyHandling h buf past args with
    | .fault f => .fault f
    | .ok (h', args') =>
      match splitGroupsBytes room jk args' with
      | .fault f => .fault f
      | .ok (pargs, forked) => .ok (h', pargs :: forked)

/-! ## Properties -/

theorem argv_tokens (l : List String) (rest : List Cell) :
    argv (l.map some ++ none :: rest) = .ok l := by
  induction l with
  | nil => rfl
  | cons s l ih => simp [argv, ih]

theorem wr_ok (a : Arr) (i : Nat) (c : Cell) (h : i < a.length) :
    wr a i c = .ok (a.take i ++ c :: a.drop (i + 1)) := by
  simp [wr, h, List.set_eq_take_append_cons_drop]

theorem wr_fault (a : Arr) (i : Nat) (c : Cell) (h : a.length ≤ i) :
    wr a i c = .fault .outOfBounds := by
  simp [wr, Nat.not_lt.mpr h]

theorem storeTokens_ok (junk : Nat → Cell) (more : List String) :
    ∀ (tokens : Arr) (pos : Nat), tokens.length = 64 → pos + more.length ≤ 64 →
      storeTokens junk more tokens 64 pos
        = .ok (tokens.take pos ++ more.map some ++ tokens.drop (pos + more.length),
               pos + more.length) := by
  induction more with
  | nil => intro tokens pos _ _; simp [storeTokens]
  | cons t more ih =>
    intro tokens pos hlen hle
    simp only [List.length_cons] at hle
    have hpos : pos < tokens.length := by omega
    have h1 : ¬ (pos + 1 > 64) := by omega
    rw [storeTokens, wr_ok _ _ _ hpos]
    simp only [h1, if_false]
    rw [ih _ _ (by simp; omega) (by omega)]
    have e1 : (List.take pos tokens ++ some t :: List.drop (pos + 1) tokens).take (pos + 1)
        = List.take pos tokens ++ [some t] := by
      rw [List.take_append_eq_append_take]
      simp [List.length_take, Nat.min_eq_left (Nat.le_of_lt hpos)]
    have e2 : (List.take pos tokens ++ some t :: List.drop (pos + 1) tokens).drop (pos + 1 + more.length)
        = List.drop (pos + (more.length + 1)) tokens := by
      rw [List.drop_append_eq_append_drop]
      simp [List.length_take, Nat.min_eq_left (Nat.le_of_lt hpos)]
      have : pos + 1 + more.length - pos = (more.length) + 1 := by omega
      rw [List.drop_eq_nil_of_le (by simp; omega), this]
      simp [List.drop_drop]
      congr 1; omega
    rw [e1, e2]
    simp [List.length_cons, Nat.add_assoc, Nat.add_comm 1]


theorem malloc_length (junk : Nat → Cell) (n : Nat) : (malloc junk n).length = n := by
  simp [malloc]

theorem gushSplitLine_cons (junk : Nat → Cell) (line : List Char) (t : String)
    (ts : List String) (h : strtokAll line = t :: ts) (hlen : ts.length + 1 < 64) :
    gushSplitLine junk line = .ok (block junk (t :: ts)) := by
  have hm := malloc_length junk 64
  have hs := storeTokens_ok junk (t :: ts) (malloc junk 64) 0 hm (by simp; omega)
  simp only [List.take_zero, List.nil_append, Nat.zero_add] at hs
  have hl : ((t :: ts).map some ++ List.drop (t :: ts).length (malloc junk 64)).length = 64 := by
    simp [hm]; omega
  have hw := wr_ok ((t :: ts).map some ++ List.drop (t :: ts).length (malloc junk 64))
    (t :: ts).length none (by rw [hl]; simp; omega)
  have e1 : ((t :: ts).map some ++ List.drop (t :: ts).length (malloc junk 64)).take (t :: ts).length
      = (t :: ts).map some := by
    rw [List.take_append_eq_append_take]; simp
  have e2 : ((t :: ts).map some ++ List.drop (t :: ts).length (malloc junk 64)).drop ((t :: ts).length + 1)
      = (malloc junk 64).drop ((t :: ts).length + 1) := by
    rw [List.drop_append_eq_append_drop]
    simp [List.drop_drop]
  rw [e1, e2] at hw
  unfold gushSplitLine
  simp only [BUFSIZE, h, hs, hw]
  simp [rd, block]

theorem gushSplitLine_empty (junk : Nat → Cell) (line : List Char) (h : strtokAll line = []) :
    gushSplitLine junk line = .ok (some "deadcmd" :: (malloc junk 64).drop 1) := by
  have hm := malloc_length junk 64
  have hpos : 0 < (malloc junk 64).length := by omega
  unfold gushSplitLine
  simp only [BUFSIZE, h, storeTokens, wr_ok _ _ _ hpos]
  simp [rd, wr]


theorem getPindexLoop_run (pre : List String) (stop : Cell) (rest : List Cell)
    (hpre : "&" ∉ pre) (hstop : isStop stop) :
    ∀ p, getPindexLoop (pre.map some ++ stop :: rest) p = .ok (p + pre.length) := by
  induction pre with
  | nil =>
    intro p
    rcases hstop with h | h <;> subst h <;> simp [getPindexLoop]
  | cons s pre ih =>
    intro p
    have hs : s ≠ "&" := fun e => hpre (by simp [e])
    have hp : "&" ∉ pre := fun e => hpre (by simp [e])
    show getPindexLoop (some s :: (pre.map some ++ stop :: rest)) p = _
    rw [getPindexLoop, if_neg hs, ih hp]
    simp [Nat.add_assoc, Nat.add_comm 1]

theorem splitProcessLoop_run (pre : List String) (stop : Cell) (rest : List Cell)
    (hpre : "&" ∉ pre) (hstop : isStop stop) :
    ∀ (newargs : Arr) (i : Nat), i + pre.length < newargs.length →
      splitProcessLoop (pre.map some ++ stop :: rest) newargs i
        = .ok (newargs.take i ++ pre.map some ++ none :: newargs.drop (i + pre.length + 1)) := by
  induction pre with
  | nil =>
    intro newargs i hi
    simp only [List.length_nil, Nat.add_zero] at hi
    rcases hstop with h | h <;> subst h <;> simp [splitProcessLoop, wr_ok _ _ _ hi]
  | cons s pre ih =>
    intro newargs i hi
    simp only [List.length_cons] at hi
    have hs : s ≠ "&" := fun e => hpre (by simp [e])
    have hp : "&" ∉ pre := fun e => hpre (by simp [e])
    have hi0 : i < newargs.length := by omega
    show splitProcessLoop (some s :: (pre.map some ++ stop :: rest)) newargs i = _
    rw [splitProcessLoop, if_pos hs, wr_ok _ _ _ hi0]
    simp only []
    rw [ih hp _ _ (by simp; omega)]
    have e1 : (List.take i newargs ++ some s :: List.drop (i + 1) newargs).take (i + 1)
        = List.take i newargs ++ [some s] := by
      rw [List.take_append_eq_append_take]
      simp [List.length_take, Nat.min_eq_left (Nat.le_of_lt hi0)]
    have e2 : (List.take i newargs ++ some s :: List.drop (i + 1) newargs).drop (i + 1 + pre.length + 1)
        = List.drop (i + (pre.length + 1) + 1) newargs := by
      rw [List.drop_append_eq_append_drop]
      simp [List.length_take, Nat.min_eq_left (Nat.le_of_lt hi0)]
      have : i + 1 + pre.length + 1 - i = (pre.length + 1) + 1 := by omega
      rw [List.drop_eq_nil_of_le (by simp; omega), this]
      simp [List.drop_drop]
      congr 1; omega
    rw [e1, e2]
    simp


theorem gushSplitProcess_run (junk : Nat → Cell) (pfx : List Cell) (pre : List String)
    (stop : Cell) (rest : List Cell) (hpre : "&" ∉ pre) (hstop : isStop stop)
    (hlen : pre.length < 64) :
    gushSplitProcess junk (some (pfx ++ (pre.map some ++ stop :: rest))) pfx.length
      = .ok (block junk pre) := by
  have hm := malloc_length junk 64
  simp only [gushSplitProcess, List.drop_left]
  rw [splitProcessLoop_run pre stop rest hpre hstop _ _ (by rw [hm]; omega)]
  simp [block]

theorem gushGetPindex_run (pfx : List Cell) (pre : List String)
    (stop : Cell) (rest : List Cell) (hpre : "&" ∉ pre) (hstop : isStop stop) :
    gushGetPindex (some (pfx ++ (pre.map some ++ stop :: rest))) pfx.length
      = .ok (pfx.length + pre.length) := by
  simp only [gushGetPindex, List.drop_left]
  exact getPindexLoop_run pre stop rest hpre hstop _

theorem argv_block (junk : Nat → Cell) (l : List String) : argv (block junk l) = .ok l :=
  argv_tokens l _

theorem rd_at (pfx : List Cell) (c : Cell) (rest : List Cell) :
    rd (pfx ++ c :: rest) pfx.length = .ok c := by
  have h : (pfx ++ c :: rest)[pfx.length]? = some c := by
    rw [List.getElem?_append_right (Nat.le_refl _)]
    simp
  simp only [rd, h]

theorem rd_oob (a : Arr) (p : Nat) (h : a.length ≤ p) : rd a p = .fault .outOfBounds := by
  simp [rd, List.getElem?_eq_none h]

theorem forkLoop_null (jk : Nat → Nat → Cell) (a : Arr) (fuel p k : Nat)
    (h : rd a p = .ok none) : forkLoop jk (some a) (fuel + 1) p k = .ok [] := by
  simp [forkLoop, h]

theorem forkLoop_oob (jk : Nat → Nat → Cell) (a : Arr) (fuel p k : Nat)
    (h : a.length ≤ p) : forkLoop jk (some a) (fuel + 1) p k = .fault .outOfBounds := by
  simp [forkLoop, rd_oob a p h]

theorem forkLoop_step (jk : Nat → Nat → Cell) (a pfx : List Cell) (s : String)
    (pre : List String) (stop : Cell) (rest : List Cell)
    (ha : a = pfx ++ ((s :: pre).map some ++ stop :: rest)) (hpre : "&" ∉ s :: pre)
    (hstop : isStop stop) (hlen : pre.length + 1 < 64) (fuel p q k : Nat)
    (hp : p = pfx.length) (hq : q = p + pre.length + 2) :
    forkLoop jk (some a) (fuel + 1) p k
      = match forkLoop jk (some a) fuel q (k + 1) with
        | .fault f => .fault f
        | .ok l => .ok (block (jk k) (s :: pre) :: l) := by
  subst ha hp hq
  rw [forkLoop]
  have hrd : rd (pfx ++ ((s :: pre).map some ++ stop :: rest)) pfx.length = .ok (some s) := by
    exact rd_at pfx (some s) _
  simp only [hrd, gushSplitProcess_run (jk k) pfx (s :: pre) stop rest hpre hstop (by simpa using hlen),
    gushGetPindex_run pfx (s :: pre) stop rest hpre hstop, List.length_cons]
  rfl

theorem malloc_drop (junk : Nat → Cell) (n m : Nat) (h : m < n) :
    (malloc junk n).drop m = junk m :: (malloc junk n).drop (m + 1) := by
  have hl : m < (malloc junk n).length := by rw [malloc_length]; exact h
  rw [List.drop_eq_getElem_cons hl]
  simp [malloc]

theorem splitGroups_first (jk : Nat → Nat → Cell) (pre : List String) (stop : Cell)
    (rest : List Cell) (hpre : "&" ∉ pre) (hstop : isStop stop) (hlen : pre.length < 64) :
    splitGroups jk (some (pre.map some ++ stop :: rest))
      = match forkLoop jk (some (pre.map some ++ stop :: rest))
            (pre.length + rest.length + 2) (pre.length + 1) 1 with
        | .fault f => .fault f
        | .ok l => .ok (block (jk 0) pre, l) := by
  have h1 := gushSplitProcess_run (jk 0) [] pre stop rest hpre hstop hlen
  have h2 := gushGetPindex_run [] pre stop rest hpre hstop
  simp only [List.nil_append, List.length_nil, Nat.zero_add] at h1 h2
  simp only [splitGroups, h1, h2, loopBound, List.length_append, List.length_map,
    List.length_cons, Nat.add_assoc]

/-- A vector without `&` whose terminator is the last cell of its block: the
loop condition `args[pindex] != NULL` loads the cell behind the block. -/
theorem splitGroups_overread (jk : Nat → Nat → Cell) (pre : List String)
    (hpre : "&" ∉ pre) (hlen : pre.length < 64) :
    splitGroups jk (some (pre.map some ++ [none])) = .fault .outOfBounds := by
  rw [splitGroups_first jk pre none [] hpre (Or.inl rfl) hlen]
  rw [forkLoop_oob _ _ _ _ _ (by simp)]

/-- A vector without `&` followed by a cell that holds `NULL`: one group. -/
theorem splitGroups_single (jk : Nat → Nat → Cell) (pre : List String) (rest : List Cell)
    (hpre : "&" ∉ pre) (hlen : pre.length < 64) :
    splitGroups jk (some (pre.map some ++ none :: none :: rest)) = .ok (block (jk 0) pre, []) := by
  rw [splitGroups_first jk pre none _ hpre (Or.inl rfl) hlen]
  have h := rd_at (pre.map some ++ [none]) none rest
  simp only [List.append_assoc, List.singleton_append, List.length_append, List.length_map,
    List.length_singleton] at h
  rw [forkLoop_null _ _ _ _ _ h]

/-- A vector whose only `&` is its last token: one group, whatever follows the
terminator. -/
theorem splitGroups_trailing (jk : Nat → Nat → Cell) (pre : List String) (rest : List Cell)
    (hpre : "&" ∉ pre) (hlen : pre.length < 64) :
    splitGroups jk (some (pre.map some ++ some "&" :: none :: rest))
      = .ok (block (jk 0) pre, []) := by
  rw [splitGroups_first jk pre (some "&") _ hpre (Or.inr rfl) hlen]
  have h := rd_at (pre.map some ++ [some "&"]) none rest
  simp only [List.append_assoc, List.singleton_append, List.length_append, List.length_map,
    List.length_singleton] at h
  rw [forkLoop_null _ _ _ _ _ h]

/-- A vector with one `&` that is not its last token, followed by a cell that
holds `NULL`: the parent keeps the tokens before `&` and forks one child for
the tokens after it. -/
theorem splitGroups_pair (jk : Nat → Nat → Cell) (pre : List String) (s : String)
    (post : List String) (rest : List Cell)
    (hpre : "&" ∉ pre) (hpost : "&" ∉ s :: post) (hlen : pre.length < 64)
    (hlen2 : post.length + 1 < 64) :
    splitGroups jk (some (pre.map some ++ some "&" :: ((s :: post).map some ++ none :: none :: rest)))
      = .ok (block (jk 0) pre, [block (jk 1) (s :: post)]) := by
  rw [splitGroups_first jk pre (some "&") _ hpre (Or.inr rfl) hlen]
  have hs := forkLoop_step jk
    (pre.map some ++ some "&" :: ((s :: post).map some ++ none :: none :: rest))
    (pre.map some ++ [some "&"]) s post none (none :: rest) (by simp) hpost
    (Or.inl rfl) hlen2
    (pre.length + ((s :: post).map some ++ none :: none :: rest).length + 1)
    (pre.length + 1) (pre.length + 1 + post.length + 2) 1 (by simp) rfl
  have h : rd (pre.map some ++ some "&" :: ((s :: post).map some ++ none :: none :: rest))
      (pre.length + 1 + post.length + 2) = .ok none := by
    have := rd_at (pre.map some ++ some "&" :: ((s :: post).map some ++ [none])) none rest
    simp only [List.append_assoc, List.singleton_append, List.length_append, List.length_map,
      List.length_singleton, List.cons_append, List.length_cons] at this
    have e : pre.length + 1 + post.length + 2 = pre.length + (post.length + 1 + 1 + 1) := by omega
    rw [e]
    simpa using this
  have hf := forkLoop_null jk _
    (pre.length + ((s :: post).map some ++ none :: none :: rest).length) _ 2 h
  rw [hs, hf]

theorem gushSplitLine_tokens (junk : Nat → Cell) (line : List Char) (toks : List String)
    (h : strtokAll line = toks) (hne : toks ≠ []) (hlen : toks.length < 64) :
    gushSplitLine junk line = .ok (block junk toks) := by
  cases toks with
  | nil => exact absurd rfl hne
  | cons t ts => exact gushSplitLine_cons junk line t ts h (by simpa using hlen)

/-- C1, evaluated on the code: a line of 63 tokens without `&` is tokenized
into a block whose last cell is the terminator, and the group loop of
`gushloop` then loads `args[64]`, a cell outside that block, to decide whether
to fork a further group; and on the line `ls`, when the cell behind the
terminator holds a stale pointer, a second group is forked. -/
theorem gushloop_no_amp_reads_past_terminator (junk : Nat → Cell) (jk : Nat → Nat → Cell) :
    strtokAll line63 = List.replicate 63 "a"
    ∧ gushSplitLine junk line63 = .ok (List.replicate 63 (some "a") ++ [none])
    ∧ lineGroups junk jk line63 = .fault .outOfBounds
    ∧ lineVectors (staleAt 2 "x") (fun _ => zeroed) "ls".toList = .ok [.ok ["ls"], .ok ["x"]] := by
  have ht : strtokAll line63 = List.replicate 63 "a" := by decide
  have hb : block junk (List.replicate 63 "a") = (List.replicate 63 "a").map some ++ [none] := by
    simp [block, malloc_length]
  have hs := gushSplitLine_tokens junk line63 _ ht (by decide) (by decide)
  refine ⟨ht, ?_, ?_, by decide⟩
  · rw [hs, hb]; simp
  · simp only [lineGroups, hs, hb]
    rw [splitGroups_overread jk _ (by decide) (by decide)]

theorem getPindexLoop_bound : ∀ (l : List Cell) (p q : Nat),
    getPindexLoop l p = .ok q → p ≤ q ∧ q < p + l.length := by
  intro l
  induction l with
  | nil => intro p q h; simp [getPindexLoop] at h
  | cons c l ih =>
    intro p q h
    cases c with
    | none =>
      simp only [getPindexLoop, Res.ok.injEq] at h
      subst h; simp
    | some s =>
      by_cases hs : s = "&"
      · simp only [getPindexLoop, hs, if_true, Res.ok.injEq] at h
        subst h; simp
      · simp only [getPindexLoop, hs, if_false] at h
        have := ih (p + 1) q h
        simp only [List.length_cons]
        omega

theorem wr_fault_kind (a : Arr) (i : Nat) (c : Cell) (f : Fault)
    (h : wr a i c = .fault f) : f = .outOfBounds := by
  unfold wr at h
  split at h <;> simp_all

theorem getPindexLoop_fault : ∀ (l : List Cell) (p : Nat) (f : Fault),
    getPindexLoop l p = .fault f → f = .outOfBounds := by
  intro l
  induction l with
  | nil => intro p f h; simp [getPindexLoop] at h; exact h.symm
  | cons c l ih =>
    intro p f h
    cases c with
    | none => simp [getPindexLoop] at h
    | some s =>
      by_cases hs : s = "&"
      · simp [getPindexLoop, hs] at h
      · simp only [getPindexLoop, hs, if_false] at h
        exact ih _ _ h

theorem splitProcessLoop_fault : ∀ (l : List Cell) (newargs : Arr) (i : Nat) (f : Fault),
    splitProcessLoop l newargs i = .fault f → f = .outOfBounds := by
  intro l
  induction l with
  | nil => intro na i f h; simp [splitProcessLoop] at h; exact h.symm
  | cons c l ih =>
    intro na i f h
    cases c with
    | none => exact wr_fault_kind _ _ _ _ (by simpa [splitProcessLoop] using h)
    | some s =>
      by_cases hs : s = "&"
      · exact wr_fault_kind _ _ _ _ (by simpa [splitProcessLoop, hs] using h)
      · simp only [splitProcessLoop, ne_eq, hs, not_false_eq_true, if_true] at h
        cases hw : wr na i (some s) with
        | fault g =>
          rw [hw] at h
          simp only [Res.fault.injEq] at h
          subst h
          exact wr_fault_kind _ _ _ _ hw
        | ok na2 =>
          rw [hw] at h
          exact ih _ _ _ h

theorem forkLoop_fuel (jk : Nat → Nat → Cell) (a : Arr) : ∀ (fuel p k : Nat),
    p ≤ a.length → a.length + 1 ≤ p + fuel →
    forkLoop jk (some a) fuel p k ≠ .fault .fuel := by
  intro fuel
  induction fuel with
  | zero => intro p k h1 h2; omega
  | succ fuel ih =>
    intro p k h1 h2
    rw [forkLoop]
    cases hr : rd a p with
    | fault f =>
      have : f = .outOfBounds := by
        unfold rd at hr
        split at hr <;> simp_all
      simp [this]
    | ok c =>
      cases c with
      | none => simp
      | some s =>
        simp only []
        cases hsp : gushSplitProcess (jk k) (some a) p with
        | fault f =>
          have : f = .outOfBounds := splitProcessLoop_fault _ _ _ _ hsp
          simp [this]
        | ok pargs2 =>
          simp only []
          cases hg : gushGetPindex (some a) p with
          | fault f =>
            have : f = .outOfBounds := getPindexLoop_fault _ _ _ hg
            simp [this]
          | ok q =>
            simp only []
            have hb := getPindexLoop_bound _ _ _ hg
            simp only [List.length_drop] at hb
            have := ih (q + 1) (k + 1) (by omega) (by omega)
            cases hf : forkLoop jk (some a) fuel (q + 1) (k + 1) with
            | fault f => simp; intro e; exact this (by rw [hf, e])
            | ok l => simp

/-- The bound that `splitGroups` gives the group loop is never reached: the
loop ends by itself, with its groups or with a fault of the C program. -/
theorem splitGroups_fuel (jk : Nat → Nat → Cell) (args : Option Arr) :
    splitGroups jk args ≠ .fault .fuel := by
  cases args with
  | none => simp [splitGroups, gushSplitProcess]
  | some a =>
    unfold splitGroups
    cases hsp : gushSplitProcess (jk 0) (some a) 0 with
    | fault f =>
      have : f = .outOfBounds := splitProcessLoop_fault _ _ _ _ hsp
      simp [this]
    | ok pargs =>
      simp only []
      cases hg : gushGetPindex (some a) 0 with
      | fault f =>
        have : f = .outOfBounds := getPindexLoop_fault _ _ _ hg
        simp [this]
      | ok q =>
        simp only []
        have hb := getPindexLoop_bound _ _ _ hg
        simp only [List.drop_zero, Nat.zero_add] at hb
        have := forkLoop_fuel jk a (a.length + 1) (q + 1) 1 (by omega) (by omega)
        simp only [loopBound]
        cases hf : forkLoop jk (some a) (a.length + 1) (q + 1) 1 with
        | fault f => simp; intro e; exact this (by rw [hf, e])
        | ok l => simp


theorem record_slots_length (h : History) (a : Option Arr) :
    (record h a).slots.length = h.slots.length := by
  simp [record]

theorem recordAll_snoc (cmds : List Arr) (c : Arr) :
    recordAll (cmds ++ [c]) = record (recordAll cmds) (some c) := by
  simp [recordAll, List.foldl_append]

theorem recordAll_length (cmds : List Arr) :
    (recordAll cmds).slots.length = 20 ∧ (recordAll cmds).historyct = cmds.length := by
  induction cmds using List.reverseRecOn with
  | nil => simp [recordAll, History.init]
  | append_singleton cmds c ih =>
    rw [recordAll_snoc]
    simp [record, ih.1, ih.2]

/-- As long as the ring has not wrapped, slot `i` holds the command recorded
as number `i + 1`. -/
theorem recordAll_le20 (cmds : List Arr) (h : cmds.length ≤ 20) :
    (recordAll cmds).slots = cmds.map some ++ List.replicate (20 - cmds.length) none := by
  induction cmds using List.reverseRecOn with
  | nil => simp [recordAll, History.init]
  | append_singleton cmds c ih =>
    simp only [List.length_append, List.length_singleton] at h
    rw [recordAll_snoc]
    simp only [record, ih (by omega), (recordAll_length cmds).2, Nat.mod_eq_of_lt (show cmds.length < 20 by omega)]
    have e : 20 - cmds.length = (20 - (cmds.length + 1)) + 1 := by omega
    rw [e, List.replicate_succ]
    have hl : cmds.length = (cmds.map some).length := by simp
    conv => lhs; arg 2; rw [hl]
    rw [List.set_append_right _ _ (Nat.le_refl _)]
    simp


theorem rd_block_zero (junk : Nat → Cell) (s : String) (l : List String) :
    rd (block junk (s :: l)) 0 = .ok (some s) := by
  simp [block, rd]

theorem historyAt_oob (slots : List (Option Arr)) (n : Nat) (h : slots.length ≤ n) :
    historyAt slots (n : Int) = .fault .outOfBounds := by
  simp [historyAt, List.getElem?_eq_none h]

/-- C3, evaluated on the code: whatever has been recorded, and in particular
after 25 commands, the line `!25` makes `gushGetHistoryCmd` load `history[24]`
(or run off the buffer `shortcut`), outside the 20 slots of the store. -/
theorem shortcut_25_leaves_history_array (cmds : List Arr) (b₀ b₁ b₂ past : Char)
    (junk : Nat → Cell) :
    historyHandling (recordAll cmds) [b₀, b₁, b₂] past (block junk ["!25"])
      = .fault .outOfBounds := by
  have hp : parseShortcut [b₀, b₁, b₂] "!25" past = ['2', '5', b₂] := by
    have h1 : cstrAt "!25" past 1 = '2' := rfl
    have h2 : cstrAt "!25" past 2 = '5' := rfl
    simp [parseShortcut, h1, h2, setByte]
  have hsc : gushIsHistoryShortcut "!25" = true := by decide
  have hne : ("!25" : String) ≠ "history" := by decide
  have hat : atoi ['2', '5', b₂] = .fault .outOfBounds ∨ atoi ['2', '5', b₂] = .ok 25 := by
    have hs : isSpace '2' = false := by decide
    have d2 : Char.isDigit '2' = true := by decide
    have d5 : Char.isDigit '5' = true := by decide
    have n2 : ('2' : Char) ≠ '-' := by decide
    have p2 : ('2' : Char) ≠ '+' := by decide
    by_cases hd : b₂.isDigit = true
    · left
      simp [atoi, atoiSigned, atoiDigits, hs, d2, d5, n2, p2, hd]
    · right
      simp [atoi, atoiSigned, atoiDigits, hs, d2, d5, n2, p2, hd]
  have hh : historyAt (recordAll cmds).slots (25 - 1) = .fault .outOfBounds :=
    historyAt_oob _ 24 (by rw [(recordAll_length cmds).1]; decide)
  simp only [historyHandling, rd_block_zero, hne, ne_eq, not_false_eq_true, if_true, hsc,
    not_true_eq_false, if_false, gushGetHistoryCmd, hp]
  rcases hat with h | h
  · simp only [h]
  · simp only [h, hh]


theorem recordAll_wrap5 (l : List Arr) (hl : l.length = 20) (c₁ c₂ c₃ c₄ c₅ : Arr) :
    (recordAll (l ++ [c₁, c₂, c₃, c₄, c₅])).slots[0]? = some (some c₁) := by
  have h20 := recordAll_le20 l (by omega)
  have hc := (recordAll_length l).2
  simp only [hl, Nat.sub_self, List.replicate_zero, List.append_nil] at h20 hc
  have e : recordAll (l ++ [c₁, c₂, c₃, c₄, c₅])
      = record (record (record (record (record (recordAll l) (some c₁)) (some c₂)) (some c₃))
          (some c₄)) (some c₅) := by
    simp [recordAll, List.foldl_append]
  rw [e]
  simp [record, h20, hc, List.getElem?_set, hl]

theorem historyHandling_shortcut (h : History) (buf : List Char) (past : Char)
    (junk : Nat → Cell) (a0 : String) (n : Int) (r : Option Arr)
    (hsc : gushIsHistoryShortcut a0 = true) (hne : a0 ≠ "history")
    (hat : atoi (parseShortcut buf a0 past) = .ok n) (hh : historyAt h.slots (n - 1) = .ok r) :
    historyHandling h buf past (block junk [a0]) = .ok (record h r, r) := by
  simp only [historyHandling, rd_block_zero, hne, ne_eq, not_false_eq_true, if_true, hsc,
    not_true_eq_false, if_false, gushGetHistoryCmd, hat, hh]

/-- C4, evaluated on the code: after two recorded commands the line `!3` loads
the empty slot `history[2]`; the `NULL` found there is recorded and becomes
`args`, and `gushSplitProcess` dereferences it.  After 25 recorded commands the
line `!1` yields the command recorded as number 21, which sits in slot 0. -/
theorem shortcut_miss_is_not_detected (a b : Arr) (junk : Nat → Cell) (jk : Nat → Nat → Cell)
    (f : Fin 20 → Arr) (c₂₁ c₂₂ c₂₃ c₂₄ c₂₅ : Arr) :
    historyHandling (recordAll [a, b]) zeroBytes '\x00' (block junk ["!3"])
        = .ok (record (recordAll [a, b]) none, none)
    ∧ splitGroups jk none = .fault .nullDeref
    ∧ historyHandling (recordAll (List.ofFn f ++ [c₂₁, c₂₂, c₂₃, c₂₄, c₂₅])) zeroBytes '\x00'
          (block junk ["!1"])
        = .ok (record (recordAll (List.ofFn f ++ [c₂₁, c₂₂, c₂₃, c₂₄, c₂₅])) (some c₂₁), some c₂₁) := by
  refine ⟨?_, rfl, ?_⟩
  · have hs : (recordAll [a, b]).slots = [some a, some b] ++ List.replicate 18 none :=
      recordAll_le20 [a, b] (by simp)
    exact historyHandling_shortcut _ _ _ junk "!3" 3 none (by decide) (by decide) (by decide)
      (by rw [hs]; rfl)
  · have hs : (recordAll (List.ofFn f ++ [c₂₁, c₂₂, c₂₃, c₂₄, c₂₅])).slots[0]? = some (some c₂₁) :=
      recordAll_wrap5 (List.ofFn f) (by simp) c₂₁ c₂₂ c₂₃ c₂₄ c₂₅
    exact historyHandling_shortcut _ _ _ junk "!1" 1 (some c₂₁) (by decide) (by decide) (by decide)
      (by simp only [historyAt, Int.sub_self, Int.toNat_zero, hs]; rfl)

theorem historyLines_blocks (junk : Nat → Cell) (ws : List (List String)) :
    ∀ (pre post : List (Option Arr)),
      historyLines (pre ++ (ws.map (fun w => some (block junk w)) ++ post)) ws.length pre.length
        = .ok (numberFrom (pre.length + 1) ws) := by
  induction ws with
  | nil => intro pre post; rfl
  | cons w ws ih =>
    intro pre post
    have hg : (pre ++ ((w :: ws).map (fun w => some (block junk w)) ++ post))[pre.length]?
        = some (some (block junk w)) := by
      rw [List.getElem?_append_right (Nat.le_refl _)]
      simp
    have ih2 := ih (pre ++ [some (block junk w)]) post
    simp only [List.append_assoc, List.singleton_append, List.length_append,
      List.length_singleton] at ih2
    simp only [List.length_cons, historyLines, hg, argv_block, numberFrom]
    simp only [List.map_cons, List.cons_append, ih2]

/-- While at most 20 commands have been recorded, `history` prints them in
recording order, oldest first, under the numbers 1, 2, ... -/
theorem gush_history_le20 (junk : Nat → Cell) (ws : List (List String)) (h : ws.length ≤ 20) :
    gush_history (recordAll (ws.map (block junk))) = .ok (numberFrom 1 ws) := by
  have h20 := recordAll_le20 (ws.map (block junk)) (by simpa using h)
  have hc := (recordAll_length (ws.map (block junk))).2
  simp only [List.length_map] at h20 hc
  have hn : ¬ ws.length > 20 := by omega
  simp only [gush_history, h20, hc, hn, if_false, List.map_map]
  have := historyLines_blocks junk ws [] (List.replicate (20 - ws.length) none)
  simpa [Function.comp_def] using this

/-- C10, evaluated on the code: once a 21st command has been recorded,
`history` prints that newest command first, under the number 1, followed by
the commands recorded as numbers 2 to 20. -/
theorem gush_history_after_wrap (junk : Nat → Cell) (w : Fin 20 → List String)
    (w₂₁ : List String) :
    gush_history (recordAll (List.ofFn (fun i => block junk (w i)) ++ [block junk w₂₁]))
      = .ok (numberFrom 1 (w₂₁ :: (List.ofFn w).tail)) := by
  have h20 := recordAll_le20 (List.ofFn (fun i => block junk (w i))) (by simp)
  have hc := (recordAll_length (List.ofFn (fun i => block junk (w i)))).2
  simp only [List.length_ofFn, Nat.sub_self, List.replicate_zero, List.append_nil] at h20 hc
  rw [recordAll_snoc]
  simp only [gush_history, record, h20, hc]
  have e : ((List.ofFn fun i => block junk (w i)).map some).set (20 % 20) (some (block junk w₂₁))
      = [] ++ ((w₂₁ :: (List.ofFn w).tail).map (fun w => some (block junk w)) ++ []) := by
    simp [List.ofFn_succ, Function.comp_def]
  rw [e]
  have := historyLines_blocks junk (w₂₁ :: (List.ofFn w).tail) [] []
  simpa using this


theorem validLoop_clean (access : String → Bool) (cmd : String) (dirs : List String)
    (rest : List Cell) :
    validLoop access cmd (dirs.map some ++ none :: rest) ""
      = .ok ((firstMatch access cmd dirs).getD cmd) := by
  induction dirs with
  | nil => rfl
  | cons d dirs ih =>
    have e : "" ++ d = d := by
      apply String.ext; simp
    simp only [List.map_cons, List.cons_append, validLoop, firstMatch, e]
    by_cases h : access (d ++ "/" ++ cmd) = true
    · simp [h]
    · simp [h, ih]

/-- When the buffer `tmp` starts out empty, `gushIsValidCmd` returns the name
if it is executable as given, else the first `dir/name` that is executable, in
the order of the search path, else the name. -/
theorem gushIsValidCmd_clean (access : String → Bool) (dirs : List String) (cmd : String)
    (h : dirs.length < 64) :
    gushIsValidCmd access (pathOf dirs) "" (some cmd)
      = .ok (if access cmd then cmd else (firstMatch access cmd dirs).getD cmd) := by
  have e : 64 - dirs.length = (63 - dirs.length) + 1 := by omega
  simp only [gushIsValidCmd, pathOf, e, List.replicate_succ, validLoop_clean]
  by_cases ha : access cmd = true <;> simp [ha]

/-- C5, evaluated on the code: `gushIsValidCmd` appends the first directory
to whatever the fresh buffer `tmp` holds.  With the search path `/a`, `/b`, a
file `x` executable in both and a stale byte `z` in `tmp`, the path tested
first is `z/a/x` and the result is `/b/x`; with an empty `tmp` it is `/a/x`. -/
theorem gushIsValidCmd_appends_to_fresh_buffer :
    gushIsValidCmd accessAB (pathOf ["/a", "/b"]) "z" (some "x") = .ok "/b/x"
    ∧ gushIsValidCmd accessAB (pathOf ["/a", "/b"]) "" (some "x") = .ok "/a/x" := by
  decide

theorem copyArgs_length (args : Arr) : ∀ (n i : Nat) (newargs : Arr),
    i + n ≤ newargs.length → i + n ≤ args.length →
    ∃ r, copyArgs args n i newargs = .ok r ∧ r.length = newargs.length := by
  intro n
  induction n with
  | zero => intro i newargs _ _; exact ⟨newargs, rfl, rfl⟩
  | succ n ih =>
    intro i newargs h1 h2
    have hi : i < args.length := by omega
    have hr : rd args i = .ok args[i] := by
      simp [rd, List.getElem?_eq_getElem hi]
    obtain ⟨r, hr1, hr2⟩ := ih (i + 1) (newargs.take i ++ args[i] :: newargs.drop (i + 1))
      (by simp; omega) (by omega)
    refine ⟨r, ?_, ?_⟩
    · simp only [copyArgs, hr, wr_ok _ _ _ (show i < newargs.length by omega), hr1]
    · rw [hr2]; simp; omega

/-- C6, evaluated on the code: whenever the token at `redirectIndex` is a
redirection token whose target opens, `gushRedirect` copies the tokens before
it into a block of `redirectIndex` cells and then stores the terminator at
index `redirectIndex`, one cell behind that block. -/
theorem gushRedirect_terminator_outside_block (junk : Nat → Cell) (openR openW : Cell → Bool)
    (k : Nat) (fds : Fds) (args : Arr) (tok : String) (target : Cell)
    (hk : rd args k = .ok (some tok)) (ht : rd args (k + 1) = .ok target)
    (hopen : (if tok = "<" then openR target else openW target) = true) :
    gushRedirect junk openR openW k fds args = .fault .outOfBounds := by
  have hlen : k < args.length := by
    by_contra hc
    rw [rd_oob args k (by omega)] at hk
    cases hk
  obtain ⟨r, hr1, hr2⟩ := copyArgs_length args k 0 (malloc junk k)
    (by simp [malloc_length]) (by omega)
  have hw : wr r k none = .fault .outOfBounds :=
    wr_fault r k none (by rw [hr2, malloc_length])
  by_cases h : tok = "<"
  · simp only [h, if_true] at hopen
    simp [gushRedirect, hk, ht, h, hopen, hr1, hw]
  · simp only [h, if_false] at hopen
    simp [gushRedirect, hk, ht, h, hopen, hr1, hw]

/-- C6 on `ls > out`: `gushContainsRedirect` reports index 1 and `gushRedirect`
stores the terminator outside its one-cell block. -/
theorem gushRedirect_terminator_outside_block_witness :
    gushContainsRedirect (block zeroed ["ls", ">", "out"]) 0 = .ok (true, 1)
    ∧ gushRedirect zeroed opensAll opensAll 1 ttyFds (block zeroed ["ls", ">", "out"])
        = .fault .outOfBounds :=
  ⟨by decide, gushRedirect_terminator_outside_block zeroed opensAll opensAll 1 ttyFds
    (block zeroed ["ls", ">", "out"]) ">" (some "out") (by decide) (by decide) (by decide)⟩

/-- C7: when the token at `redirectIndex` is `<` and its target cannot be
opened for reading, `gushRedirect` reports one error and returns the vector it
was given, with the descriptors as they were; when the token is `>` and the
target cannot be created, it reports one error and ends the process with
`exit(EXIT_FAILURE)` instead of returning a vector to execute. -/
theorem gushRedirect_open_failure (junk : Nat → Cell) (openR openW : Cell → Bool)
    (k : Nat) (fds : Fds) (args : Arr) (target : Cell) (ht : rd args (k + 1) = .ok target) :
    (rd args k = .ok (some "<") → openR target = false →
        gushRedirect junk openR openW k fds args = .ok (.returned args fds 1))
    ∧ (rd args k = .ok (some ">") → openW target = false →
        gushRedirect junk openR openW k fds args = .ok (.exited 1 1)) := by
  constructor
  · intro hk ho
    simp [gushRedirect, hk, ht, ho]
  · intro hk ho
    have hne : (">" : String) ≠ "<" := by decide
    simp [gushRedirect, hk, ht, ho, hne]

/-- C7 on `cat < missing` and on `ls > out` when no file can be opened. -/
theorem gushRedirect_open_failure_witness :
    gushContainsRedirect (block zeroed ["cat", "<", "missing"]) 0 = .ok (true, 1)
    ∧ gushRedirect zeroed opensNone opensNone 1 ttyFds (block zeroed ["cat", "<", "missing"])
        = .ok (.returned (block zeroed ["cat", "<", "missing"]) ttyFds 1)
    ∧ gushRedirect zeroed opensNone opensNone 1 ttyFds (block zeroed ["ls", ">", "out"])
        = .ok (.exited 1 1) :=
  ⟨by decide,
   (gushRedirect_open_failure zeroed opensNone opensNone 1 ttyFds
      (block zeroed ["cat", "<", "missing"]) (some "missing") (by decide)).1 (by decide) rfl,
   (gushRedirect_open_failure zeroed opensNone opensNone 1 ttyFds
      (block zeroed ["ls", ">", "out"]) (some "out") (by decide)).2 (by decide) rfl⟩

/-- C8, evaluated on the code: in `gushloop` the two `dup2` after a redirected
command put descriptors 0 and 1 back to what they were bound to before it; in
`gushbatch` they bind descriptor 0 to the standard input the shell was started
with, not to the batch file it was bound to before the command. -/
theorem batch_redirect_unbinds_batch_file (in0 out0 : Endpoint) (file tok : String)
    (target : Cell) :
    redirectedRunFds (gushloopFds in0 out0) tok target = gushloopFds in0 out0
    ∧ (gushbatchFds in0 out0 file).stdin = .file (some file) false
    ∧ (redirectedRunFds (gushbatchFds in0 out0 file) tok target).stdin = in0
    ∧ (redirectedRunFds (gushbatchFds in0 out0 file) tok target).stdout
        = (gushbatchFds in0 out0 file).stdout
    ∧ (redirectedRunFds (gushbatchFds (.inherited 0) (.inherited 1) "script") ">"
          (some "out")).stdin
        ≠ (gushbatchFds (.inherited 0) (.inherited 1) "script").stdin := by
  refine ⟨?_, ?_, ?_, ?_, by decide⟩ <;> by_cases h : tok = "<" <;>
    simp [redirectedRunFds, restoreFds, bindRedirect, gushloopFds, gushbatchFds, h]


/-- C9, evaluated on the code: for the line `a & b & c` the shell forks two
children for `b` and `c`, launches `a` and waits for it, and then calls
`wait(NULL)` once; whichever child that call reaps, the other one is still
unreaped when the turn ends and the next line is read.  For `a & b` the one
forked child is reaped. -/
theorem one_wait_for_all_forked_groups :
    lineTurn "a & b & c".toList 0 = .ok (⟨[101], 103⟩, 101, false)
    ∧ lineTurn "a & b & c".toList 1 = .ok (⟨[100], 103⟩, 101, false)
    ∧ (∀ pick, ∀ r, lineTurn "a & b & c".toList pick = .ok r → r.1.unreaped.length = 1)
    ∧ (∀ pick, lineTurn "a & b".toList pick = .ok (⟨[], 102⟩, 100, false)) := by
  have h3 : ∀ pick, lineTurn "a & b & c".toList pick
      = .ok (waitAny ⟨[100, 101], 103⟩ pick, 101, false) := by
    intro pick
    have hs : gushSplitLine zeroed "a & b & c".toList = .ok (block zeroed ["a", "&", "b", "&", "c"]) := by
      decide
    have hg : splitGroups (fun _ => zeroed) (some (block zeroed ["a", "&", "b", "&", "c"]))
        = .ok (block zeroed ["a"], [block zeroed ["b"], block zeroed ["c"]]) := by
      decide
    simp only [lineTurn, hs, parentTurn, hg]
    rfl
  have h2 : ∀ pick, lineTurn "a & b".toList pick = .ok (waitAny ⟨[100], 102⟩ pick, 100, false) := by
    intro pick
    have hs : gushSplitLine zeroed "a & b".toList = .ok (block zeroed ["a", "&", "b"]) := by
      decide
    have hg : splitGroups (fun _ => zeroed) (some (block zeroed ["a", "&", "b"]))
        = .ok (block zeroed ["a"], [block zeroed ["b"]]) := by
      decide
    simp only [lineTurn, hs, parentTurn, hg]
    rfl
  have hw : ∀ pick, waitAny ⟨[100, 101], 103⟩ pick = ⟨[101], 103⟩
      ∨ waitAny ⟨[100, 101], 103⟩ pick = ⟨[100], 103⟩ := by
    intro pick
    have hm : pick % 2 = 0 ∨ pick % 2 = 1 := by omega
    rcases hm with h | h
    · left; simp [waitAny, h]
    · right; simp [waitAny, h]
  refine ⟨by rw [h3]; rfl, by rw [h3]; rfl, ?_, ?_⟩
  · intro pick r hr
    rw [h3] at hr
    cases hr
    rcases hw pick with h | h <;> simp [h]
  · intro pick
    rw [h2]
    simp [waitAny, Nat.mod_one]


theorem modifyHead_nil_append (l : List (List Char)) :
    List.modifyHead (fun x : List Char => ([] : List Char).reverse ++ x) l = l := by
  cases l <;> simp [List.modifyHead]

theorem filter_modifyHead_nonempty (cur : List Char) (c : Char) (l : List (List Char)) :
    (List.modifyHead (fun x => (c :: cur).reverse ++ x) l).filter (fun r => !r.isEmpty)
      = match l with
        | [] => []
        | x :: rest => ((c :: cur).reverse ++ x) :: rest.filter (fun r => !r.isEmpty) := by
  cases l with
  | nil => rfl
  | cons x rest =>
    have h : ((c :: cur).reverse ++ x).isEmpty = false := by
      cases hx : (c :: cur).reverse ++ x with
      | nil => simp at hx
      | cons _ _ => rfl
    show List.filter _ (((c :: cur).reverse ++ x) :: rest) = _
    rw [List.filter_cons]
    simp only [h, Bool.not_false, if_true]

theorem modifyHead_self (l : List (List Char)) :
    List.modifyHead (fun x : List Char => x) l = l := by
  cases l <;> rfl

theorem strtokAux_eq (cs : List Char) : ∀ cur : List Char,
    strtokAux cs cur
      = ((((cs.splitOnP isDelim).modifyHead (fun x => cur.reverse ++ x)).filter
          (fun r => !r.isEmpty)).map String.mk) := by
  induction cs with
  | nil =>
    intro cur
    cases cur with
    | nil => simp [strtokAux, List.modifyHead]
    | cons c cur =>
      rw [filter_modifyHead_nonempty]
      simp [strtokAux]
  | cons c cs ih =>
    intro cur
    by_cases hd : isDelim c = true
    · cases cur with
      | nil =>
        rw [List.splitOnP_cons, if_pos hd]
        show strtokAux (c :: cs) []
          = List.map String.mk (List.filter _ (([] : List Char) :: List.splitOnP isDelim cs))
        rw [List.filter_cons]
        simp [strtokAux, hd, ih [], modifyHead_self]
      | cons d cur =>
        rw [List.splitOnP_cons, if_pos hd, filter_modifyHead_nonempty]
        simp [strtokAux, hd, ih [], modifyHead_self]
    · simp only [strtokAux, hd, Bool.false_eq_true, if_false, ih (c :: cur), List.splitOnP_cons,
        List.modifyHead_modifyHead]
      congr 3
      funext x
      simp

/-- The tokens that the repeated `strtok` yields are the maximal
delimiter-free runs of the line. -/
theorem strtokAll_eq (line : List Char) : strtokAll line = delimiterFreeRuns line := by
  rw [strtokAll, strtokAux_eq, delimiterFreeRuns, modifyHead_nil_append]

theorem storeTokens_overflow (junk : Nat → Cell) (more : List String) :
    ∀ (tokens : Arr) (pos : Nat), tokens.length = 64 → pos ≤ 64 → 64 < pos + more.length →
      storeTokens junk more tokens 64 pos = .fault .outOfBounds := by
  induction more with
  | nil => intro tokens pos _ h1 h2; simp at h2; omega
  | cons t more ih =>
    intro tokens pos hlen h1 h2
    simp only [List.length_cons] at h2
    by_cases hp : pos < 64
    · have h3 : ¬ (pos + 1 > 64) := by omega
      rw [storeTokens, wr_ok _ _ _ (by omega)]
      simp only [h3, if_false]
      exact ih _ _ (by simp; omega) (by omega) (by omega)
    · rw [storeTokens, wr_fault _ _ _ (by omega)]

theorem gushSplitLine_from_64 (junk : Nat → Cell) (line : List Char)
    (h : 64 ≤ (strtokAll line).length) :
    gushSplitLine junk line = .fault .outOfBounds := by
  have hm := malloc_length junk 64
  unfold gushSplitLine
  by_cases h64 : (strtokAll line).length = 64
  · have hs := storeTokens_ok junk (strtokAll line) (malloc junk 64) 0 hm (by omega)
    simp only [BUFSIZE, hs]
    rw [wr_fault _ _ _ (by simp [hm]; omega)]
  · have hs := storeTokens_overflow junk (strtokAll line) (malloc junk 64) 0 hm (by omega)
      (by omega)
    simp only [BUFSIZE, hs]

/-- C20, evaluated on the code: the test `pos > bufsize` lets `pos` reach the
capacity 64 before the block is grown.  With exactly 64 tokens the loop fills
the cells 0 to 63 and the terminator is then stored at index 64 of the
64-cell block; with more than 64 tokens the 65th token is stored there.  In
both cases `gushSplitLine` stores outside its block. -/
theorem gushSplitLine_stores_at_capacity (junk : Nat → Cell) (line : List Char)
    (h : 64 ≤ (strtokAll line).length) :
    ((strtokAll line).length = 64 →
        storeTokens junk (strtokAll line) (malloc junk BUFSIZE) BUFSIZE 0
          = .ok ((strtokAll line).map some, 64)
        ∧ wr ((strtokAll line).map some) 64 none = .fault .outOfBounds)
    ∧ (64 < (strtokAll line).length →
        storeTokens junk (strtokAll line) (malloc junk BUFSIZE) BUFSIZE 0 = .fault .outOfBounds)
    ∧ gushSplitLine junk line = .fault .outOfBounds := by
  have hm := malloc_length junk 64
  refine ⟨?_, ?_, gushSplitLine_from_64 junk line h⟩
  · intro h64
    have hs := storeTokens_ok junk (strtokAll line) (malloc junk 64) 0 hm (by omega)
    have hd : List.drop (strtokAll line).length (malloc junk 64) = [] :=
      List.drop_eq_nil_of_le (by rw [hm, h64])
    simp only [List.take_zero, List.nil_append, Nat.zero_add] at hs
    rw [hd, List.append_nil, h64] at hs
    exact ⟨hs, wr_fault _ _ _ (by simp [h64])⟩
  · intro hgt
    exact storeTokens_overflow junk (strtokAll line) (malloc junk 64) 0 hm (by omega) (by omega)

/-- C20 on a line of 64 one-letter tokens. -/
theorem gushSplitLine_stores_at_capacity_witness :
    (strtokAll line64).length = 64 ∧ gushSplitLine zeroed line64 = .fault .outOfBounds :=
  ⟨by decide, (gushSplitLine_stores_at_capacity zeroed line64 (by decide)).2.2⟩

/-- C16, evaluated on the code: the tokens that `gushSplitLine` takes from
`strtok` are the maximal delimiter-free runs of the line, and with 1 to 63 of
them it returns exactly these, in order; with 64 or more of them it stores
outside its block instead of returning them. -/
theorem gushSplitLine_tokens_or_overflow (junk : Nat → Cell) (line : List Char) :
    strtokAll line = delimiterFreeRuns line
    ∧ (delimiterFreeRuns line ≠ [] → (delimiterFreeRuns line).length < 64 →
        ∃ a, gushSplitLine junk line = .ok a ∧ argv a = .ok (delimiterFreeRuns line))
    ∧ (64 ≤ (delimiterFreeRuns line).length → gushSplitLine junk line = .fault .outOfBounds) := by
  refine ⟨strtokAll_eq line, ?_, ?_⟩
  · intro hne hlen
    exact ⟨_, gushSplitLine_tokens junk line _ (strtokAll_eq line) hne hlen, argv_block _ _⟩
  · intro h
    exact gushSplitLine_from_64 junk line (by rw [strtokAll_eq]; exact h)

/-- C16 on a line of 65 tokens separated by tabs. -/
theorem gushSplitLine_tokens_or_overflow_witness :
    delimiterFreeRuns line65 = List.replicate 65 "b"
    ∧ gushSplitLine zeroed line65 = .fault .outOfBounds :=
  ⟨by decide, (gushSplitLine_tokens_or_overflow zeroed line65).2.2 (by decide)⟩


theorem recordSeq_snoc (xs : List (Option Arr)) (x : Option Arr) :
    recordSeq (xs ++ [x]) = record (recordSeq xs) x := by
  simp [recordSeq, List.foldl_append]

theorem recordSeq_length (xs : List (Option Arr)) :
    (recordSeq xs).slots.length = 20 ∧ (recordSeq xs).historyct = xs.length := by
  induction xs using List.reverseRecOn with
  | nil => simp [recordSeq, History.init]
  | append_singleton xs x ih =>
    rw [recordSeq_snoc]
    simp [record, ih.1, ih.2]

theorem recordAll_eq_recordSeq (cmds : List Arr) : recordAll cmds = recordSeq (cmds.map some) := by
  simp [recordAll, recordSeq, List.foldl_map]

/-- C11: recording a vector when `c` vectors have been recorded stores it in
slot `c mod 20`, leaves every other slot as it was and makes the count `c + 1`;
hence, whatever has been recorded, the store has 20 slots, a slot that no
sequence number has reached yet is empty, and the slot `j mod 20` holds the
vector recorded with the 0-based sequence number `j` as long as `j` is among
the last 20, that is the most recent one of its residue class. -/
theorem record_ring (xs : List (Option Arr)) (x : Option Arr) :
    ((record (recordSeq xs) x).slots[xs.length % 20]? = some x
      ∧ (∀ i, i ≠ xs.length % 20 → (record (recordSeq xs) x).slots[i]? = (recordSeq xs).slots[i]?)
      ∧ (record (recordSeq xs) x).historyct = xs.length + 1)
    ∧ (recordSeq xs).slots.length = 20
    ∧ (recordSeq xs).historyct = xs.length
    ∧ (∀ i, xs.length ≤ i → i < 20 → (recordSeq xs).slots[i]? = some none)
    ∧ (∀ j, j < xs.length → xs.length ≤ j + 20 → (recordSeq xs).slots[j % 20]? = xs[j]?) := by
  have step : ∀ (ys : List (Option Arr)) (y : Option Arr),
      (record (recordSeq ys) y).slots[ys.length % 20]? = some y
      ∧ (∀ i, i ≠ ys.length % 20 →
          (record (recordSeq ys) y).slots[i]? = (recordSeq ys).slots[i]?)
      ∧ (record (recordSeq ys) y).historyct = ys.length + 1 := by
    intro ys y
    have hl := recordSeq_length ys
    have hm : ys.length % 20 < 20 := Nat.mod_lt _ (by decide)
    refine ⟨?_, ?_, ?_⟩
    · simp only [record, hl.2]
      rw [List.getElem?_set_self (by rw [hl.1]; exact hm)]
    · intro i hi
      simp only [record, hl.2]
      rw [List.getElem?_set_ne (Ne.symm hi)]
    · simp [record, hl.2]
  refine ⟨step xs x, (recordSeq_length xs).1, (recordSeq_length xs).2, ?_, ?_⟩
  · induction xs using List.reverseRecOn with
    | nil =>
      intro i _ hi
      have e : (recordSeq []).slots = List.replicate 20 none := rfl
      rw [e, List.getElem?_replicate, if_pos hi]
    | append_singleton ys y ih =>
      intro i h1 h2
      simp only [List.length_append, List.length_singleton] at h1
      rw [recordSeq_snoc, (step ys y).2.1 i (by rw [Nat.mod_eq_of_lt (by omega)]; omega)]
      exact ih i (by omega) h2
  · induction xs using List.reverseRecOn with
    | nil => intro j hj; simp at hj
    | append_singleton ys y ih =>
      intro j h1 h2
      simp only [List.length_append, List.length_singleton] at h1 h2
      rw [recordSeq_snoc]
      by_cases hj : j = ys.length
      · subst hj
        rw [(step ys y).1]
        simp
      · have hlt : j < ys.length := by omega
        have hne : j % 20 ≠ ys.length % 20 := by omega
        rw [(step ys y).2.1 _ hne, ih j hlt (by omega), List.getElem?_append_left hlt]

/-- C11 on 25 recorded commands: the 25th sits in slot 4, the 6th is still in
slot 5, and a 26th goes to slot 5. -/
theorem record_ring_witness :
    (recordSeq cmds25).slots[24 % 20]? = cmds25[24]?
    ∧ (recordSeq cmds25).slots[5 % 20]? = cmds25[5]?
    ∧ (record (recordSeq cmds25) none).slots[25 % 20]? = some none :=
  ⟨(record_ring cmds25 none).2.2.2.2 24 (by decide) (by decide),
   (record_ring cmds25 none).2.2.2.2 5 (by decide) (by decide),
   (record_ring cmds25 none).1.1⟩


theorem rd_block_one (junk : Nat → Cell) (s : String) :
    rd (block junk [s]) 1 = .ok none := by
  simp [block, rd]

theorem rd_block_two (junk : Nat → Cell) (s t : String) (l : List String) :
    rd (block junk (s :: t :: l)) 1 = .ok (some t) := by
  simp [block, rd]

/-- C12, evaluated on the code: `gushloop` leaves the store alone for a line
whose first token is `history` and records every other line; `gushbatch`
records a line only if, in addition, `args[1] == NULL`, so the line `ls -l` is
recorded in interactive mode and not in batch mode, while `ls` is recorded in
both. -/
theorem batch_records_one_token_lines_only (h : History) (buf : List Char) (past : Char)
    (junk : Nat → Cell) :
    historyHandling h buf past (block junk ["history", "x", "y"])
        = .ok (h, some (block junk ["history", "x", "y"]))
    ∧ historyHandling h buf past (block junk ["ls", "-l"])
        = .ok (record h (some (block junk ["ls", "-l"])), some (block junk ["ls", "-l"]))
    ∧ historyHandlingBatch h buf past (block junk ["ls", "-l"])
        = .ok (h, some (block junk ["ls", "-l"]))
    ∧ historyHandlingBatch h buf past (block junk ["ls"])
        = .ok (record h (some (block junk ["ls"])), some (block junk ["ls"])) := by
  have h1 : ("ls" : String) ≠ "history" := by decide
  have h2 : gushIsHistoryShortcut "ls" = false := by decide
  refine ⟨?_, ?_, ?_, ?_⟩
  · simp [historyHandling, rd_block_zero]
  · simp [historyHandling, rd_block_zero, h1, h2]
  · simp [historyHandlingBatch, rd_block_zero, rd_block_two, h1]
  · simp [historyHandlingBatch, rd_block_zero, rd_block_one, h1, h2]


theorem rd_block_at (junk : Nat → Cell) (l : List String) (i : Nat) (h : i < l.length) :
    rd (block junk l) i = .ok (some l[i]) := by
  have e : (block junk l)[i]? = some (some l[i]) := by
    simp only [block]
    rw [List.getElem?_append_left (by simpa using h)]
    simp [List.getElem?_eq_getElem h]
  simp only [rd, e]

theorem rd_block_end (junk : Nat → Cell) (l : List String) :
    rd (block junk l) l.length = .ok none := by
  have := rd_at (l.map some) none ((malloc junk 64).drop (l.length + 1))
  simpa [block] using this

/-- C13, evaluated on the code: on the usage error `pwd x` the built-in
`gush_pwd` returns the value of `gushError()`, which is 0, so `gushExecute`
hands the loop `while(run)` the value that ends it; on `exit x` and on
`history x` the value is 1. -/
theorem pwd_usage_error_ends_loop (chdir : String → Option String) (execve : String → Bool)
    (s : Sys) (junk : Nat → Cell) :
    gushExecute chdir execve s (block junk ["pwd", "x"])
        = .ok (.returned 0 { s with errors := s.errors + 1 })
    ∧ gushExecute chdir execve s (block junk ["exit", "x"])
        = .ok (.returned 1 { s with errors := s.errors + 1 })
    ∧ gushExecute chdir execve s (block junk ["history", "x"])
        = .ok (.returned 1 { s with errors := s.errors + 1 }) := by
  have h0 : ∀ a b : String, rd (block junk [a, b]) 0 = .ok (some a) := fun a b =>
    rd_block_zero junk a [b]
  have h1 : ∀ a b : String, rd (block junk [a, b]) 1 = .ok (some b) := fun a b =>
    rd_block_two junk a b []
  refine ⟨?_, ?_, ?_⟩
  · simp [gushExecute, h0, dispatch, builtin_names, builtin_func, gush_pwd, h1, gushError]
  · simp [gushExecute, h0, dispatch, builtin_names, builtin_func, gush_exit, h1, gushError]
  · simp [gushExecute, h0, dispatch, builtin_names, builtin_func, gush_history_builtin, h1,
      gushError]

/-- C14, evaluated on the code: for the vector `cd` the built-in first loads
`args[2]`, the cell behind the terminator.  When that cell holds `NULL` it
calls `chdir(args[1])`, that is `chdir(NULL)`, and reports its failure; when
the cell holds a stale pointer it reports an error without a call.  For
`cd d` it calls `chdir(d)` and for `cd a b` it reports an error without a call. -/
theorem gush_cd_reads_behind_terminator (chdir : String → Option String) (s : Sys) :
    gush_cd chdir s (block zeroed ["cd"])
        = .ok (.returned 1 { s with chdirs := s.chdirs ++ [none], errors := s.errors + 1 })
    ∧ gush_cd chdir s (block (staleAt 2 "x") ["cd"])
        = .ok (.returned 1 { s with errors := s.errors + 1 })
    ∧ gush_cd chdirAll s (block zeroed ["cd", "d"])
        = .ok (.returned 1 { s with cwd := "d", chdirs := s.chdirs ++ [some "d"] })
    ∧ gush_cd chdir s (block zeroed ["cd", "a", "b"])
        = .ok (.returned 1 { s with errors := s.errors + 1 }) := by
  have r1 : rd (block zeroed ["cd"]) 2 = .ok none := by decide
  have r2 : rd (block zeroed ["cd"]) 1 = .ok none := by decide
  have r3 : rd (block (staleAt 2 "x") ["cd"]) 2 = .ok (some "x") := by decide
  have r4 : rd (block zeroed ["cd", "d"]) 2 = .ok none := by decide
  have r5 : rd (block zeroed ["cd", "d"]) 1 = .ok (some "d") := by decide
  have r6 : rd (block zeroed ["cd", "a", "b"]) 2 = .ok (some "b") := by decide
  refine ⟨?_, ?_, ?_, ?_⟩
  · simp [gush_cd, r1, r2, gushError]
  · simp [gush_cd, r3, gushError]
  · simp [gush_cd, r4, r5, chdirAll]
  · simp [gush_cd, r6, gushError]

/-- C15, evaluated on the code: for a line without tokens `gushSplitLine`
overwrites the terminator at index 0 with the sentinel and stores no
terminator behind it, so the vector ends wherever the fresh block happens to
hold `NULL`; and `gushExecute` knows no sentinel: it sends `deadcmd` through
`gushLaunch`, which creates a child, and the child reports the failure of its
`execve`. -/
theorem sentinel_is_unterminated_and_launched (junk : Nat → Cell) (line : List Char)
    (h : strtokAll line = []) (chdir : String → Option String) (execve : String → Bool)
    (s : Sys) :
    gushSplitLine junk line = .ok (some "deadcmd" :: (malloc junk 64).drop 1)
    ∧ rd (some "deadcmd" :: (malloc junk 64).drop 1) 1 = .ok (junk 1)
    ∧ gushExecute chdir execve s (block junk ["deadcmd"])
        = .ok (.returned 1
            { s with spawned := s.spawned + 1,
                     errors := (if execve "deadcmd" then s.errors else s.errors + 1) }) := by
  refine ⟨gushSplitLine_empty junk line h, ?_, ?_⟩
  · rw [malloc_drop junk 64 1 (by decide)]
    rfl
  · simp [gushExecute, rd_block_zero, dispatch, builtin_names, builtin_func, gushLaunch]

/-- C15 on the empty line and on a line of blanks, with a stale pointer in
cell 1 of the fresh block. -/
theorem sentinel_is_unterminated_and_launched_witness :
    (match gushSplitLine (staleAt 1 "x") [] with
      | .ok a => argv a
      | .fault f => .fault f) = .ok ["deadcmd", "x"]
    ∧ gushExecute chdirAll execveNone sys0 (block zeroed ["deadcmd"])
        = .ok (.returned 1 { sys0 with spawned := 1, errors := 1 })
    ∧ gushSplitLine zeroed " \t\n".toList = .ok (some "deadcmd" :: (malloc zeroed 64).drop 1) :=
  ⟨by decide,
   (sentinel_is_unterminated_and_launched zeroed [] (by decide) chdirAll execveNone sys0).2.2,
   (sentinel_is_unterminated_and_launched zeroed " \t\n".toList (by decide) chdirAll execveNone
      sys0).1⟩


theorem clearPath_run (dirs : List String) (rest : List Cell) :
    clearPath (dirs.map some ++ none :: rest)
      = .ok (List.replicate dirs.length none ++ none :: rest) := by
  induction dirs with
  | nil => rfl
  | cons d dirs ih => simp [clearPath, ih, List.replicate_succ]

theorem clearPath_pathOf (dirs : List String) (h : dirs.length < 64) :
    clearPath (pathOf dirs) = .ok (List.replicate 64 none) := by
  have e : 64 - dirs.length = (63 - dirs.length) + 1 := by omega
  rw [pathOf, e, List.replicate_succ, clearPath_run]
  have e2 : (none : Cell) :: List.replicate (63 - dirs.length) none
      = List.replicate (63 - dirs.length + 1) none := by
    rw [List.replicate_succ]
  rw [e2, List.append_replicate_replicate]
  congr 2
  omega

theorem setPath_run (as : List String) (rest : List Cell)
    (hfit : ∀ a ∈ as, a.utf8ByteSize + 1 ≤ sizeofCharPtr) :
    ∀ (path : List Cell) (j : Nat), j + as.length ≤ path.length →
      setPath (as.map some ++ none :: rest) path j
        = .ok (path.take j ++ as.map some ++ path.drop (j + as.length)) := by
  induction as with
  | nil => intro path j _; simp [setPath]
  | cons a as ih =>
    intro path j h
    simp only [List.length_cons] at h
    have hj : j < path.length := by omega
    have ha : a.utf8ByteSize + 1 ≤ sizeofCharPtr := hfit a (by simp)
    show setPath (some a :: (as.map some ++ none :: rest)) path j = _
    rw [setPath, if_pos ha, wr_ok _ _ _ hj]
    simp only []
    rw [ih (fun x hx => hfit x (by simp [hx])) _ _ (by simp; omega)]
    have e1 : (List.take j path ++ some a :: List.drop (j + 1) path).take (j + 1)
        = List.take j path ++ [some a] := by
      rw [List.take_append_eq_append_take]
      simp [List.length_take, Nat.min_eq_left (Nat.le_of_lt hj)]
    have e2 : (List.take j path ++ some a :: List.drop (j + 1) path).drop (j + 1 + as.length)
        = List.drop (j + (as.length + 1)) path := by
      rw [List.drop_append_eq_append_drop]
      simp [List.length_take, Nat.min_eq_left (Nat.le_of_lt hj)]
      have : j + 1 + as.length - j = as.length + 1 := by omega
      rw [List.drop_eq_nil_of_le (by simp; omega), this]
      simp [List.drop_drop]
      congr 1; omega
    rw [e1, e2]
    simp

theorem setPath_overrun (as : List String) (rest : List Cell)
    (hbig : ∃ a ∈ as, sizeofCharPtr < a.utf8ByteSize + 1) :
    ∀ (path : List Cell) (j : Nat),
      setPath (as.map some ++ none :: rest) path j = .fault .outOfBounds := by
  induction as with
  | nil => obtain ⟨a, ha, _⟩ := hbig; simp at ha
  | cons a as ih =>
    intro path j
    show setPath (some a :: (as.map some ++ none :: rest)) path j = _
    rw [setPath]
    by_cases ha : a.utf8ByteSize + 1 ≤ sizeofCharPtr
    · have hrest : ∃ b ∈ as, sizeofCharPtr < b.utf8ByteSize + 1 := by
        obtain ⟨b, hb, hb2⟩ := hbig
        simp only [List.mem_cons] at hb
        rcases hb with rfl | hb
        · omega
        · exact ⟨b, hb, hb2⟩
      rw [if_pos ha]
      cases hw : wr path j (some a) with
      | fault f => rw [wr_fault_kind _ _ _ _ hw]
      | ok p => exact ih hrest p (j + 1)
    · rw [if_neg ha]

/-- C17, evaluated on the code: `gush_path` clears the global `path` and then
copies every argument with `strcpy` through two blocks of `sizeof(char*)`
bytes.  If every name, with its terminating NUL, fits these bytes, `path`
afterwards holds exactly the arguments, in order, followed by `NULL` cells
only; if one name does not fit, it is written behind the end of the blocks.
With the empty search path `gushIsValidCmd` returns a name that is not
executable as given unchanged. -/
theorem gush_path_copies_through_pointer_sized_blocks (prev as : List String)
    (junk : Nat → Cell) (s : Sys)
    (hprev : prev.length < 64) (has : as.length + 1 < 64) (hs : s.path = pathOf prev) :
    ((∀ a ∈ as, a.utf8ByteSize + 1 ≤ sizeofCharPtr) →
        gush_path s (block junk ("path" :: as)) = .ok (.returned 1 { s with path := pathOf as }))
    ∧ ((∃ a ∈ as, sizeofCharPtr < a.utf8ByteSize + 1) →
        gush_path s (block junk ("path" :: as)) = .fault .outOfBounds)
    ∧ (∀ (access : String → Bool) (tmp0 cmd : String), access cmd = false →
        gushIsValidCmd access (pathOf []) tmp0 (some cmd) = .ok cmd) := by
  have hd : (block junk ("path" :: as)).drop 1
      = as.map some ++ none :: (malloc junk 64).drop (as.length + 2) := by
    simp [block]
  refine ⟨?_, ?_, ?_⟩
  · intro hfit
    have hset := setPath_run as ((malloc junk 64).drop (as.length + 2)) hfit
      (List.replicate 64 none) 0 (by simp; omega)
    simp only [gush_path, hs, clearPath_pathOf prev hprev, hd, hset]
    rw [List.take_zero, List.nil_append, Nat.zero_add, List.drop_replicate]
    rfl
  · intro hbig
    have hset := setPath_overrun as ((malloc junk 64).drop (as.length + 2)) hbig
      (List.replicate 64 none) 0
    simp only [gush_path, hs, clearPath_pathOf prev hprev, hd, hset]
  · intro access tmp0 cmd ha
    simp [gushIsValidCmd, ha, pathOf, List.replicate_succ, validLoop]

/-- C17 on `path /usr/local/share/applications` and on `path /usr/bin`, whose
names do not fit, and on `path /opt /sbin` and `path`, after the search path
`/bin`. -/
theorem gush_path_copies_through_pointer_sized_blocks_witness :
    gush_path sys0 (block zeroed ["path", "/usr/local/share/applications"])
        = .fault .outOfBounds
    ∧ gush_path sys0 (block zeroed ["path", "/usr/bin"]) = .fault .outOfBounds
    ∧ gush_path sys0 (block zeroed ["path", "/opt", "/sbin"])
        = .ok (.returned 1 { sys0 with path := pathOf ["/opt", "/sbin"] })
    ∧ gush_path sys0 (block zeroed ["path"]) = .ok (.returned 1 { sys0 with path := pathOf [] })
    ∧ gushIsValidCmd accessAB (pathOf []) "z" (some "x") = .ok "x" :=
  ⟨(gush_path_copies_through_pointer_sized_blocks ["/bin"] ["/usr/local/share/applications"]
      zeroed sys0 (by decide) (by decide) rfl).2.1 (by decide),
   (gush_path_copies_through_pointer_sized_blocks ["/bin"] ["/usr/bin"]
      zeroed sys0 (by decide) (by decide) rfl).2.1 (by decide),
   (gush_path_copies_through_pointer_sized_blocks ["/bin"] ["/opt", "/sbin"]
      zeroed sys0 (by decide) (by decide) rfl).1 (by decide),
   (gush_path_copies_through_pointer_sized_blocks ["/bin"] []
      zeroed sys0 (by decide) (by decide) rfl).1 (by decide),
   (gush_path_copies_through_pointer_sized_blocks ["/bin"] []
      zeroed sys0 (by decide) (by decide) rfl).2.2 accessAB "z" "x" (by decide)⟩


theorem cellsAmp_length (gs : List (List String)) : gs.length ≤ (cellsAmp gs).length := by
  induction gs with
  | nil => simp [cellsAmp]
  | cons g gs ih => simp [cellsAmp]; omega

theorem forkLoop_step_amp (jk : Nat → Nat → Cell) (a pfx : List Cell) (pre : List String)
    (rest : List Cell) (ha : a = pfx ++ (pre.map some ++ some "&" :: rest))
    (hpre : GroupOk pre) (fuel p q k : Nat)
    (hp : p = pfx.length) (hq : q = p + pre.length + 1) :
    forkLoop jk (some a) (fuel + 1) p k
      = match forkLoop jk (some a) fuel q (k + 1) with
        | .fault f => .fault f
        | .ok l => .ok (block (jk k) pre :: l) := by
  subst ha hp hq
  rw [forkLoop]
  have hrd : ∃ x, rd (pfx ++ (pre.map some ++ some "&" :: rest)) pfx.length = .ok (some x) := by
    cases pre with
    | nil => exact ⟨"&", rd_at pfx (some "&") _⟩
    | cons s pre => exact ⟨s, rd_at pfx (some s) _⟩
  obtain ⟨x, hx⟩ := hrd
  simp only [hx, gushSplitProcess_run (jk k) pfx pre (some "&") rest hpre.1 (Or.inr rfl) hpre.2,
    gushGetPindex_run pfx pre (some "&") rest hpre.1 (Or.inr rfl)]

/-- Groups that are each closed by `&`, then the terminator: the loop forks
one child per group and stops at the terminator. -/
theorem forkLoop_amp (jk : Nat → Nat → Cell) (tail : List Cell) (gs : List (List String)) :
    ∀ (pfx : List Cell) (k fuel : Nat), (∀ g ∈ gs, GroupOk g) → gs.length < fuel →
      forkLoop jk (some (pfx ++ (cellsAmp gs ++ none :: tail))) fuel pfx.length k
        = .ok (blocksFrom jk k gs) := by
  induction gs with
  | nil =>
    intro pfx k fuel _ hf
    obtain ⟨f, rfl⟩ : ∃ f, fuel = f + 1 := ⟨fuel - 1, by omega⟩
    exact forkLoop_null jk _ f _ k (rd_at pfx none tail)
  | cons g gs ih =>
    intro pfx k fuel hok hf
    simp only [List.length_cons] at hf
    obtain ⟨f, rfl⟩ : ∃ f, fuel = f + 1 := ⟨fuel - 1, by omega⟩
    have hs := forkLoop_step_amp jk (pfx ++ (cellsAmp (g :: gs) ++ none :: tail)) pfx g
      (cellsAmp gs ++ none :: tail) (by simp [cellsAmp]) (hok g (by simp)) f pfx.length
      (pfx.length + g.length + 1) k rfl rfl
    have hi := ih (pfx ++ (g.map some ++ [some "&"])) (k + 1) f
      (fun g' hg' => hok g' (by simp [hg'])) (by omega)
    have e : pfx ++ (g.map some ++ [some "&"]) ++ (cellsAmp gs ++ none :: tail)
        = pfx ++ (cellsAmp (g :: gs) ++ none :: tail) := by
      simp [cellsAmp]
    have e2 : (pfx ++ (g.map some ++ [some "&"])).length = pfx.length + g.length + 1 := by
      simp; omega
    rw [e, e2] at hi
    rw [hs, hi]
    rfl

/-- Groups closed by `&`, then a last non-empty group, the terminator and a
cell that holds `NULL`: one child per group. -/
theorem forkLoop_clean (jk : Nat → Nat → Cell) (tail : List Cell) (s : String)
    (g : List String) (hg : GroupOk (s :: g)) (gs : List (List String)) :
    ∀ (pfx : List Cell) (k fuel : Nat), (∀ g ∈ gs, GroupOk g) → gs.length + 1 < fuel →
      forkLoop jk (some (pfx ++ (cellsAmp gs ++ ((s :: g).map some ++ none :: none :: tail))))
          fuel pfx.length k
        = .ok (blocksFrom jk k (gs ++ [s :: g])) := by
  induction gs with
  | nil =>
    intro pfx k fuel _ hf
    obtain ⟨f, rfl⟩ : ∃ f, fuel = f + 2 := ⟨fuel - 2, by simp at hf; omega⟩
    have hs := forkLoop_step jk (pfx ++ ((s :: g).map some ++ none :: none :: tail)) pfx s g
      none (none :: tail) rfl hg.1 (Or.inl rfl) (by simpa using hg.2) (f + 1) pfx.length
      (pfx.length + g.length + 2) k rfl rfl
    have hn : rd (pfx ++ ((s :: g).map some ++ none :: none :: tail)) (pfx.length + g.length + 2)
        = .ok none := by
      have := rd_at (pfx ++ ((s :: g).map some ++ [none])) none tail
      simp only [List.append_assoc, List.singleton_append, List.length_append, List.length_map,
        List.length_singleton, List.cons_append, List.length_cons, List.map_cons] at this
      have e : pfx.length + g.length + 2 = pfx.length + (g.length + 1 + 1) := by omega
      rw [e]
      simpa using this
    simp only [cellsAmp, List.nil_append]
    rw [hs, forkLoop_null jk _ f _ (k + 1) hn]
    rfl
  | cons g' gs ih =>
    intro pfx k fuel hok hf
    simp only [List.length_cons] at hf
    obtain ⟨f, rfl⟩ : ∃ f, fuel = f + 1 := ⟨fuel - 1, by omega⟩
    have hs := forkLoop_step_amp jk
      (pfx ++ (cellsAmp (g' :: gs) ++ ((s :: g).map some ++ none :: none :: tail))) pfx g'
      (cellsAmp gs ++ ((s :: g).map some ++ none :: none :: tail)) (by simp [cellsAmp])
      (hok g' (by simp)) f pfx.length (pfx.length + g'.length + 1) k rfl rfl
    have hi := ih (pfx ++ (g'.map some ++ [some "&"])) (k + 1) f
      (fun x hx => hok x (by simp [hx])) (by omega)
    have e : pfx ++ (g'.map some ++ [some "&"])
          ++ (cellsAmp gs ++ ((s :: g).map some ++ none :: none :: tail))
        = pfx ++ (cellsAmp (g' :: gs) ++ ((s :: g).map some ++ none :: none :: tail)) := by
      simp [cellsAmp]
    have e2 : (pfx ++ (g'.map some ++ [some "&"])).length = pfx.length + g'.length + 1 := by
      simp; omega
    rw [e, e2] at hi
    rw [hs, hi]
    rfl

/-- Groups closed by `&`, then a last non-empty group whose terminator is the
last cell of the block: the loop loads the cell behind the block. -/
theorem forkLoop_overread (jk : Nat → Nat → Cell) (s : String)
    (g : List String) (hg : GroupOk (s :: g)) (gs : List (List String)) :
    ∀ (pfx : List Cell) (k fuel : Nat), (∀ g ∈ gs, GroupOk g) → gs.length + 1 < fuel →
      forkLoop jk (some (pfx ++ (cellsAmp gs ++ ((s :: g).map some ++ [none]))))
          fuel pfx.length k
        = .fault .outOfBounds := by
  induction gs with
  | nil =>
    intro pfx k fuel _ hf
    obtain ⟨f, rfl⟩ : ∃ f, fuel = f + 2 := ⟨fuel - 2, by simp at hf; omega⟩
    have hs := forkLoop_step jk (pfx ++ ((s :: g).map some ++ [none])) pfx s g
      none [] rfl hg.1 (Or.inl rfl) (by simpa using hg.2) (f + 1) pfx.length
      (pfx.length + g.length + 2) k rfl rfl
    simp only [cellsAmp, List.nil_append]
    rw [hs, forkLoop_oob jk _ f _ (k + 1) (by simp; omega)]
  | cons g' gs ih =>
    intro pfx k fuel hok hf
    simp only [List.length_cons] at hf
    obtain ⟨f, rfl⟩ : ∃ f, fuel = f + 1 := ⟨fuel - 1, by omega⟩
    have hs := forkLoop_step_amp jk
      (pfx ++ (cellsAmp (g' :: gs) ++ ((s :: g).map some ++ [none]))) pfx g'
      (cellsAmp gs ++ ((s :: g).map some ++ [none])) (by simp [cellsAmp])
      (hok g' (by simp)) f pfx.length (pfx.length + g'.length + 1) k rfl rfl
    have hi := ih (pfx ++ (g'.map some ++ [some "&"])) (k + 1) f
      (fun x hx => hok x (by simp [hx])) (by omega)
    have e : pfx ++ (g'.map some ++ [some "&"]) ++ (cellsAmp gs ++ ((s :: g).map some ++ [none]))
        = pfx ++ (cellsAmp (g' :: gs) ++ ((s :: g).map some ++ [none])) := by
      simp [cellsAmp]
    have e2 : (pfx ++ (g'.map some ++ [some "&"])).length = pfx.length + g'.length + 1 := by
      simp; omega
    rw [e, e2] at hi
    rw [hs, hi]


theorem map_joinAmp_amp (g : List String) (gs : List (List String)) :
    (joinAmp (g :: gs) ++ ["&"]).map some = cellsAmp (g :: gs) := by
  induction gs generalizing g with
  | nil => simp [joinAmp, cellsAmp]
  | cons g' gs ih =>
    have := ih g'
    simp only [List.map_append, List.map_cons, List.map_nil] at this
    simp [joinAmp, cellsAmp, this]

theorem map_joinAmp_snoc (gs : List (List String)) (g : List String) :
    (joinAmp (gs ++ [g])).map some = cellsAmp gs ++ g.map some := by
  induction gs with
  | nil => simp [joinAmp, cellsAmp]
  | cons g' gs ih =>
    cases hgs : gs ++ [g] with
    | nil => simp at hgs
    | cons x xs =>
      rw [hgs] at ih
      simp [joinAmp, cellsAmp, hgs, ih]

theorem map_argv_blocksFrom (jk : Nat → Nat → Cell) (gs : List (List String)) :
    ∀ k, (blocksFrom jk k gs).map argv = gs.map Res.ok := by
  induction gs with
  | nil => intro k; rfl
  | cons g gs ih => intro k; simp [blocksFrom, argv_block, ih]

theorem forkLoop_amp_at (jk : Nat → Nat → Cell) (a pfx tail : List Cell)
    (gs : List (List String)) (p k fuel : Nat) (ha : a = pfx ++ (cellsAmp gs ++ none :: tail))
    (hp : p = pfx.length) (hok : ∀ g ∈ gs, GroupOk g) (hf : gs.length < fuel) :
    forkLoop jk (some a) fuel p k = .ok (blocksFrom jk k gs) := by
  subst ha hp
  exact forkLoop_amp jk tail gs pfx k fuel hok hf

theorem forkLoop_clean_at (jk : Nat → Nat → Cell) (a pfx tail : List Cell) (s : String)
    (g : List String) (gs : List (List String)) (p k fuel : Nat)
    (ha : a = pfx ++ (cellsAmp gs ++ ((s :: g).map some ++ none :: none :: tail)))
    (hp : p = pfx.length) (hg : GroupOk (s :: g)) (hok : ∀ g ∈ gs, GroupOk g)
    (hf : gs.length + 1 < fuel) :
    forkLoop jk (some a) fuel p k = .ok (blocksFrom jk k (gs ++ [s :: g])) := by
  subst ha hp
  exact forkLoop_clean jk tail s g hg gs pfx k fuel hok hf

theorem forkLoop_overread_at (jk : Nat → Nat → Cell) (a pfx : List Cell) (s : String)
    (g : List String) (gs : List (List String)) (p k fuel : Nat)
    (ha : a = pfx ++ (cellsAmp gs ++ ((s :: g).map some ++ [none])))
    (hp : p = pfx.length) (hg : GroupOk (s :: g)) (hok : ∀ g ∈ gs, GroupOk g)
    (hf : gs.length + 1 < fuel) :
    forkLoop jk (some a) fuel p k = .fault .outOfBounds := by
  subst ha hp
  exact forkLoop_overread jk s g hg gs pfx k fuel hok hf

/-- Token sequences that end in `&`: the groups are the runs between the `&`
tokens, whatever the block holds behind its terminator. -/
theorem splitGroups_trailing_runs (jk : Nat → Nat → Cell) (g₀ : List String)
    (gs : List (List String)) (tail : List Cell) (hok : ∀ g ∈ g₀ :: gs, GroupOk g) :
    splitGroups jk (some ((joinAmp (g₀ :: gs) ++ ["&"]).map some ++ none :: tail))
      = .ok (block (jk 0) g₀, blocksFrom jk 1 gs) := by
  have h0 := hok g₀ (by simp)
  rw [map_joinAmp_amp]
  have e : cellsAmp (g₀ :: gs) ++ none :: tail
      = g₀.map some ++ some "&" :: (cellsAmp gs ++ none :: tail) := by
    simp [cellsAmp]
  rw [e, splitGroups_first jk g₀ (some "&") _ h0.1 (Or.inr rfl) h0.2]
  have hl := cellsAmp_length gs
  rw [forkLoop_amp_at jk _ (g₀.map some ++ [some "&"]) tail gs (g₀.length + 1) 1 _ (by simp)
    (by simp) (fun g hg => hok g (by simp [hg])) (by simp; omega)]

/-- Token sequences of two or more groups that do not end in `&`, followed by
a cell that holds `NULL`. -/
theorem splitGroups_clean_runs (jk : Nat → Nat → Cell) (g₀ : List String)
    (gs : List (List String)) (s : String) (g : List String) (tail : List Cell)
    (hok : ∀ g ∈ g₀ :: gs, GroupOk g) (hg : GroupOk (s :: g)) :
    splitGroups jk (some ((joinAmp (g₀ :: gs ++ [s :: g])).map some ++ none :: none :: tail))
      = .ok (block (jk 0) g₀, blocksFrom jk 1 (gs ++ [s :: g])) := by
  have h0 := hok g₀ (by simp)
  rw [map_joinAmp_snoc (g₀ :: gs) (s :: g)]
  have e : cellsAmp (g₀ :: gs) ++ (s :: g).map some ++ none :: none :: tail
      = g₀.map some ++ some "&" :: (cellsAmp gs ++ ((s :: g).map some ++ none :: none :: tail)) := by
    simp [cellsAmp]
  rw [e, splitGroups_first jk g₀ (some "&") _ h0.1 (Or.inr rfl) h0.2]
  have hl := cellsAmp_length gs
  rw [forkLoop_clean_at jk _ (g₀.map some ++ [some "&"]) tail s g gs (g₀.length + 1) 1 _
    (by simp) (by simp) hg (fun g hg => hok g (by simp [hg])) (by simp; omega)]

/-- Token sequences of two or more groups that do not end in `&` and whose
terminator is the last cell of the block. -/
theorem splitGroups_overread_runs (jk : Nat → Nat → Cell) (g₀ : List String)
    (gs : List (List String)) (s : String) (g : List String)
    (hok : ∀ g ∈ g₀ :: gs, GroupOk g) (hg : GroupOk (s :: g)) :
    splitGroups jk (some ((joinAmp (g₀ :: gs ++ [s :: g])).map some ++ [none]))
      = .fault .outOfBounds := by
  have h0 := hok g₀ (by simp)
  rw [map_joinAmp_snoc (g₀ :: gs) (s :: g)]
  have e : cellsAmp (g₀ :: gs) ++ (s :: g).map some ++ [none]
      = g₀.map some ++ some "&" :: (cellsAmp gs ++ ((s :: g).map some ++ [none])) := by
    simp [cellsAmp]
  rw [e, splitGroups_first jk g₀ (some "&") _ h0.1 (Or.inr rfl) h0.2]
  have hl := cellsAmp_length gs
  rw [forkLoop_overread_at jk _ (g₀.map some ++ [some "&"]) s g gs (g₀.length + 1) 1 _
    (by simp) (by simp) hg (fun g hg => hok g (by simp [hg])) (by simp; omega)]


theorem groupVectors_of (jk : Nat → Nat → Cell) (args : Arr) (g₀ : List String)
    (gs : List (List String)) (k : Nat)
    (h : splitGroups jk (some args) = .ok (block (jk 0) g₀, blocksFrom jk k gs)) :
    groupVectors jk args = .ok ((g₀ :: gs).map Res.ok) := by
  simp [groupVectors, h, argv_block, map_argv_blocksFrom]

/-- C18, evaluated on the code.  Let the groups `gs` hold no `&`.  For the
token sequence that joins them with `&` and ends in a further `&`, the loop
yields exactly the groups `gs`, one per `&`.  For a token sequence that ends
in a non-empty group, the loop yields its groups if the cell behind the
terminator of the token block holds `NULL`; if the terminator is the last cell
of the block (63 tokens), the loop loads the cell behind the block. -/
theorem group_loop_runs_or_overread (jk : Nat → Nat → Cell) (junk : Nat → Cell)
    (gs : List (List String)) (hok : ∀ g ∈ gs, GroupOk g) :
    (gs ≠ [] → groupVectors jk (block junk (joinAmp gs ++ ["&"])) = .ok (gs.map Res.ok))
    ∧ (∀ (s : String) (g : List String), GroupOk (s :: g) →
        ((joinAmp (gs ++ [s :: g])).length + 1 < 64 →
          junk ((joinAmp (gs ++ [s :: g])).length + 1) = none →
          groupVectors jk (block junk (joinAmp (gs ++ [s :: g])))
            = .ok ((gs ++ [s :: g]).map Res.ok))
        ∧ ((joinAmp (gs ++ [s :: g])).length = 63 →
          groupVectors jk (block junk (joinAmp (gs ++ [s :: g]))) = .fault .outOfBounds)) := by
  constructor
  · intro hne
    cases gs with
    | nil => exact absurd rfl hne
    | cons g₀ gs =>
      exact groupVectors_of jk _ g₀ gs 1 (splitGroups_trailing_runs jk g₀ gs _ hok)
  · intro s g hg
    constructor
    · intro hlen hj
      have hd := malloc_drop junk 64 ((joinAmp (gs ++ [s :: g])).length + 1) hlen
      rw [hj] at hd
      cases gs with
      | nil =>
        simp only [List.nil_append, joinAmp] at hd ⊢
        have h := splitGroups_single jk (s :: g)
          ((malloc junk 64).drop ((s :: g).length + 1 + 1)) hg.1 hg.2
        have hv := groupVectors_of jk _ (s :: g) [] 1 h
        unfold block
        rw [hd]
        exact hv
      | cons g₀ gs =>
        have h := splitGroups_clean_runs jk g₀ gs s g
          ((malloc junk 64).drop ((joinAmp (g₀ :: gs ++ [s :: g])).length + 1 + 1)) hok hg
        have hv := groupVectors_of jk _ g₀ (gs ++ [s :: g]) 1 h
        unfold block
        rw [hd]
        exact hv
    · intro hlen
      have hd : (malloc junk 64).drop ((joinAmp (gs ++ [s :: g])).length + 1) = [] := by
        apply List.drop_eq_nil_of_le
        rw [malloc_length, hlen]
      cases gs with
      | nil =>
        simp only [List.nil_append, joinAmp] at hd hlen ⊢
        have h := splitGroups_overread jk (s :: g) hg.1 hg.2
        simp only [groupVectors, block, hd, h]
      | cons g₀ gs =>
        have h := splitGroups_overread_runs jk g₀ gs s g hok hg
        simp only [groupVectors, block, hd, h]

/-- C18 on `a & & b &`, on `a & b` with a zeroed block, on `a & b` with a
stale pointer behind the terminator, and on 63 tokens `a & a ... a`. -/
theorem group_loop_runs_or_overread_witness :
    groupVectors (fun _ => zeroed) (block zeroed ["a", "&", "&", "b", "&"])
        = .ok [.ok ["a"], .ok [], .ok ["b"]]
    ∧ groupVectors (fun _ => zeroed) (block zeroed ["a", "&", "b"]) = .ok [.ok ["a"], .ok ["b"]]
    ∧ groupVectors (fun _ => zeroed) (block (staleAt 4 "x") ["a", "&", "b"])
        = .ok [.ok ["a"], .ok ["b"], .ok ["x"]]
    ∧ groupVectors (fun _ => zeroed) (block zeroed ("a" :: "&" :: List.replicate 61 "a"))
        = .fault .outOfBounds :=
  ⟨(group_loop_runs_or_overread (fun _ => zeroed) zeroed [["a"], [], ["b"]] (by decide)).1
      (by decide),
   ((group_loop_runs_or_overread (fun _ => zeroed) zeroed [["a"]] (by decide)).2 "b" []
      (by decide)).1 (by decide) rfl,
   by decide,
   ((group_loop_runs_or_overread (fun _ => zeroed) zeroed [["a"]] (by decide)).2 "a"
      (List.replicate 60 "a") (by decide)).2 (by decide)⟩

/-- C19, evaluated on the code: for the line `& a` the group of the shell
process itself is empty, `pargs[0]` is `NULL`, and the statement
`pargs[0] = gushIsValidCmd(pargs[0])` passes it to `strlen`; for `a & & b` the
empty group between the two `&` is forked like any other, and its child does
the same. -/
theorem empty_group_reaches_resolver (pick : Nat) (access : String → Bool) (path : List Cell)
    (tmp0 : String) :
    lineTurn "& a".toList pick = .fault .nullDeref
    ∧ lineVectors zeroed (fun _ => zeroed) "& a".toList = .ok [.ok [], .ok ["a"]]
    ∧ lineVectors zeroed (fun _ => zeroed) "a & & b".toList = .ok [.ok ["a"], .ok [], .ok ["b"]]
    ∧ rd (block zeroed []) 0 = .ok none
    ∧ gushIsValidCmd access path tmp0 none = .fault .nullDeref := by
  refine ⟨?_, by decide, by decide, by decide, rfl⟩
  have hs : gushSplitLine zeroed "& a".toList = .ok (block zeroed ["&", "a"]) := by decide
  have hg : splitGroups (fun _ => zeroed) (some (block zeroed ["&", "a"]))
      = .ok (block zeroed [], [block zeroed ["a"]]) := by decide
  have hr : rd (block zeroed []) 0 = .ok none := by decide
  simp only [lineTurn, hs, parentTurn, hg, hr, gushIsValidCmd]


theorem joinAmp_cons_cons (t : String) (g : List String) (gs : List (List String)) :
    joinAmp ((t :: g) :: gs) = t :: joinAmp (g :: gs) := by
  cases gs <;> simp [joinAmp]

theorem joinAmp_nil_cons (g : List String) (gs : List (List String)) :
    joinAmp ([] :: g :: gs) = "&" :: joinAmp (g :: gs) := by
  simp [joinAmp]

/-- Every token sequence is empty, or groups without `&` joined by `&` and
closed by a last `&`, or groups without `&` joined by `&` of which the last
one is not empty; no group is longer than the sequence. -/
theorem tokens_are_joined_groups (toks : List String) :
    toks = []
    ∨ (∃ g₀ gs, (∀ g ∈ g₀ :: gs, "&" ∉ g ∧ g.length ≤ toks.length)
        ∧ toks = joinAmp (g₀ :: gs) ++ ["&"])
    ∨ (∃ gs s g, (∀ x ∈ gs ++ [s :: g], "&" ∉ x ∧ x.length ≤ toks.length)
        ∧ toks = joinAmp (gs ++ [s :: g])) := by
  induction toks with
  | nil => exact Or.inl rfl
  | cons t ts ih =>
    right
    rcases ih with h | ⟨g₀, gs, hok, h⟩ | ⟨gs, s, g, hok, h⟩
    · subst h
      by_cases ht : t = "&"
      · left
        exact ⟨[], [], by simp, by simp [joinAmp, ht]⟩
      · right
        refine ⟨[], t, [], ?_, by simp [joinAmp]⟩
        intro x hx
        simp only [List.nil_append, List.mem_singleton] at hx
        subst hx
        simp [Ne.symm ht]
    · left
      by_cases ht : t = "&"
      · refine ⟨[], g₀ :: gs, ?_, ?_⟩
        · intro x hx
          simp only [List.mem_cons] at hx
          rcases hx with rfl | hx
          · simp
          · have := hok x (by simpa using hx)
            exact ⟨this.1, by simp only [List.length_cons]; omega⟩
        · rw [joinAmp_nil_cons, ht, h]; rfl
      · refine ⟨t :: g₀, gs, ?_, ?_⟩
        · intro x hx
          simp only [List.mem_cons] at hx
          rcases hx with rfl | hx
          · have := hok g₀ (by simp)
            refine ⟨?_, by simp only [List.length_cons]; omega⟩
            simp [Ne.symm ht, this.1]
          · have := hok x (by simp [hx])
            exact ⟨this.1, by simp only [List.length_cons]; omega⟩
        · rw [joinAmp_cons_cons, h]; rfl
    · right
      by_cases ht : t = "&"
      · refine ⟨[] :: gs, s, g, ?_, ?_⟩
        · intro x hx
          simp only [List.cons_append, List.mem_cons] at hx
          rcases hx with rfl | hx
          · simp
          · have := hok x hx
            exact ⟨this.1, by simp only [List.length_cons]; omega⟩
        · cases hgs : gs ++ [s :: g] with
          | nil => simp at hgs
          | cons y ys =>
            rw [List.cons_append, hgs, joinAmp_nil_cons, ht, h, hgs]
      · cases gs with
        | nil =>
          refine ⟨[], t, s :: g, ?_, ?_⟩
          · intro x hx
            simp only [List.nil_append, List.mem_singleton] at hx
            subst hx
            have := hok (s :: g) (by simp)
            refine ⟨?_, by simp only [List.length_cons] at this ⊢; omega⟩
            have h1 := this.1
            simp only [List.mem_cons, not_or] at h1 ⊢
            exact ⟨Ne.symm ht, h1⟩
          · simp only [List.nil_append, joinAmp] at h ⊢
            rw [h]
        | cons g₀ gs =>
          refine ⟨(t :: g₀) :: gs, s, g, ?_, ?_⟩
          · intro x hx
            simp only [List.cons_append, List.mem_cons] at hx
            rcases hx with rfl | hx
            · have := hok g₀ (by simp)
              refine ⟨?_, by simp only [List.length_cons]; omega⟩
              simp [Ne.symm ht, this.1]
            · have := hok x (by simp only [List.cons_append, List.mem_cons]; exact Or.inr hx)
              exact ⟨this.1, by simp only [List.length_cons]; omega⟩
          · rw [List.cons_append, joinAmp_cons_cons, h]; rfl


theorem splitOnP_pieces (p : Char → Bool) (l : List Char) :
    ∀ r ∈ l.splitOnP p, ∀ c ∈ r, p c = false := by
  induction l with
  | nil => intro r hr c hc; simp at hr; subst hr; simp at hc
  | cons a l ih =>
    intro r hr c hc
    rw [List.splitOnP_cons] at hr
    by_cases ha : p a = true
    · simp only [ha, if_true, List.mem_cons] at hr
      rcases hr with rfl | hr
      · simp at hc
      · exact ih r hr c hc
    · simp only [ha, Bool.false_eq_true, if_false] at hr
      cases hs : List.splitOnP p l with
      | nil => rw [hs] at hr; simp [List.modifyHead] at hr
      | cons x xs =>
        rw [hs] at hr ih
        simp only [List.modifyHead, List.mem_cons] at hr
        rcases hr with rfl | hr
        · simp only [List.mem_cons] at hc
          rcases hc with rfl | hc
          · simpa using ha
          · exact ih x (by simp) c hc
        · exact ih r (by simp [hr]) c hc

theorem flatten_splitOnP (p : Char → Bool) (l : List Char) :
    (l.splitOnP p).flatten = l.filter (fun c => !p c) := by
  induction l with
  | nil => simp
  | cons a l ih =>
    rw [List.splitOnP_cons]
    by_cases ha : p a = true
    · simp [ha, ih]
    · cases hs : List.splitOnP p l with
      | nil => exact absurd hs (List.splitOnP_ne_nil p l)
      | cons x xs =>
        rw [hs] at ih
        simp only [List.flatten_cons] at ih
        simp [ha, List.modifyHead, ← ih]

theorem flatten_filter_nonempty (ls : List (List Char)) :
    (ls.filter (fun r => !r.isEmpty)).flatten = ls.flatten := by
  induction ls with
  | nil => rfl
  | cons r ls ih =>
    cases r with
    | nil => simp [List.filter, ih]
    | cons c r => simp [List.filter, ih]

/-- Every maximal delimiter-free run is non-empty and holds no delimiter, and
the runs, in order, hold exactly the characters of the line that are not
delimiters, in the order of the line. -/
theorem delimiterFreeRuns_spec (line : List Char) :
    (∀ t ∈ delimiterFreeRuns line, t.data ≠ [] ∧ ∀ c ∈ t.data, isDelim c = false)
    ∧ ((delimiterFreeRuns line).map String.data).flatten
        = line.filter (fun c => !isDelim c) := by
  constructor
  · intro t ht
    simp only [delimiterFreeRuns, List.mem_map, List.mem_filter] at ht
    obtain ⟨r, ⟨hr, hne⟩, rfl⟩ := ht
    refine ⟨?_, splitOnP_pieces isDelim line r hr⟩
    cases r with
    | nil => simp at hne
    | cons c r => simp
  · simp only [delimiterFreeRuns, List.map_map]
    have e : (String.data ∘ String.mk) = (id : List Char → List Char) := by
      funext x; rfl
    rw [e, List.map_id, flatten_filter_nonempty, flatten_splitOnP]


/-- A token that does not fit the block of its copy is written behind the end
of that block. -/
theorem splitProcessLoopBytes_overrun (room : Nat) (s : String) (rest : List Cell)
    (newargs : Arr) (i : Nat) (hs : s ≠ "&") (hbig : room < s.utf8ByteSize + 1) :
    splitProcessLoopBytes room (some s :: rest) newargs i = .fault .outOfBounds := by
  rw [splitProcessLoopBytes]
  simp only [ne_eq, hs, not_false_eq_true, if_true, strcpyToken, Nat.not_le.mpr hbig, if_false]
  cases hw : wr newargs i (some s) with
  | fault f => rw [wr_fault_kind _ _ _ _ hw]
  | ok na => rfl

/-- What the hypotheses of the amended C2 leave out, on the code: a line that
starts with a history shortcut is replaced before the group loop (here by the
`NULL` of an empty slot, which `gushSplitProcess` dereferences); a token of 24
characters does not fit a block of 24 bytes; and the line ends at its first NUL. -/
theorem gushloopGroups_outside_amended :
    gushloopGroups 24 History.init zeroBytes '\x00' zeroed (fun _ => zeroed) "!1 & b\n".toList
        = .fault .nullDeref
    ∧ gushloopGroups 24 History.init zeroBytes '\x00' zeroed (fun _ => zeroed)
          "a & abcdefghijklmnopqrstuvwx\n".toList = .fault .outOfBounds
    ∧ strtokAll (cstring "a\x00 & b\n".toList) = ["a"] := by
  decide

end Gush
